import Mathlib

/-!
Verification of the file-operations module of the ha-mcp repository
(src/ha_mcp/tools/tools_file_operations.py).

The module exposes three operations, `read_file`, `write_file` and
`list_directory`, all sandboxed to the fixed root directory `/config`
(`CONFIG_BASE`).  We embed the module shallowly:

* a filesystem path is a list of name components, rooted at `/`
  (so `/config/a/b` is `["config", "a", "b"]`);
* the filesystem is an association list from absolute component paths to
  nodes; a node is a regular file (with its text content), a directory,
  or some other kind of object (socket, broken symlink, ...) that exists
  but is neither a regular file nor a directory;
* `pathlib` path manipulation (`lstrip`, `Path(...)` component parsing,
  joining, `.resolve()`, `str(...)`) is translated component-wise; the
  model has no symlinks, so `Path.resolve()` is lexical normalization;
* OS calls (`stat`, `open`, `mkdir`, `iterdir`) resolve paths with a
  POSIX-style walk: every intermediate component must be an existing
  directory; errors surface in an `Except OSErr` channel, which the
  `try/except` block of each operation catches and converts to a failure
  dictionary, exactly as the Python code does.  The exact text of an OS
  error message (`str(e)` in Python) is abstracted by `OSErr.msg`.
-/

namespace HaMcp

/-! ### Strings and path components -/

/-- `path.lstrip("/")`: drop every leading `'/'` character. -/
def lstripSlash (s : String) : String :=
  String.mk (s.data.dropWhile (fun c => c = '/'))

/-- Split a character list at `'/'` separators (accumulator holds the
current component, reversed). -/
def splitSlashAux : List Char → List Char → List String
  | [], acc => [String.mk acc.reverse]
  | c :: rest, acc =>
    if c = '/' then String.mk acc.reverse :: splitSlashAux rest []
    else splitSlashAux rest (c :: acc)

def splitSlash (cs : List Char) : List String :=
  splitSlashAux cs []

/-- The components of `Path(s)` for a relative string `s`: split at `'/'`,
drop empty components and `"."` (pathlib keeps `".."`). -/
def parseRel (s : String) : List String :=
  (splitSlash s.data).filter (fun c => !(c == "" || c == "."))

/-- Join components with `'/'` (no leading slash). -/
def joinSlash : List String → String
  | [] => ""
  | [c] => c
  | c :: rest => c ++ "/" ++ joinSlash rest

/-- `str(cleanPath)` for a relative `pathlib.Path` with the given
components: pathlib renders the empty component list as `"."`. -/
def cleanStr (l : List String) : String :=
  if l = [] then "." else joinSlash l

/-- `str(p)` for an absolute path with the given components. -/
def absStr (l : List String) : String :=
  "/" ++ joinSlash l

/-- `listStarts a b` holds when `b` is a prefix of the character list `a`. -/
def listStarts : List Char → List Char → Bool
  | _, [] => true
  | [], _ :: _ => false
  | a :: as, b :: bs => a = b && listStarts as bs

/-- Python `s.startswith(p)`: naive string-prefix test. -/
def strStarts (s p : String) : Bool :=
  listStarts s.data p.data

/-- Lexical normalization of an absolute component path: `"."` is
dropped, `".."` pops the last component (at the root it stays at the
root).  In a symlink-free filesystem this is what `Path.resolve()`
(`os.path.realpath`, `strict=False`) computes. -/
def resolveAux : List String → List String → List String
  | acc, [] => acc
  | acc, c :: rest =>
    if c = "." then resolveAux acc rest
    else if c = ".." then resolveAux acc.dropLast rest
    else resolveAux (acc ++ [c]) rest

def resolveAbs (l : List String) : List String :=
  resolveAux [] l

/-- The security check of the module, verbatim:
`str(full_path.resolve()).startswith(str(CONFIG_BASE.resolve()))`,
with `CONFIG_BASE = Path("/config")`. -/
def secCheck (full : List String) : Bool :=
  strStarts (absStr (resolveAbs full)) (absStr (resolveAbs ["config"]))

/-- UTF-8 byte length of one character. -/
def charUtf8Size (c : Char) : Nat :=
  if c.toNat < 128 then 1
  else if c.toNat < 2048 then 2
  else if c.toNat < 65536 then 3
  else 4

/-- UTF-8 byte length of a string: `st_size` of a file whose content is
the string (files are written with `encoding="utf-8"`). -/
def utf8Len (s : String) : Nat :=
  (s.data.map charUtf8Size).sum

/-- Code-point comparison of character lists: Python string `<=`. -/
def strLeChars : List Char → List Char → Bool
  | [], _ => true
  | _ :: _, [] => false
  | a :: as, b :: bs =>
    if a.toNat < b.toNat then true
    else if b.toNat < a.toNat then false
    else strLeChars as bs

/-- Python string comparison `a <= b` (lexicographic on code points). -/
def strLe (a b : String) : Bool :=
  strLeChars a.data b.data

/-- Insert into a `strLe`-sorted list. -/
def insSorted (a : String) : List String → List String
  | [] => [a]
  | b :: bs => if strLe a b then a :: b :: bs else b :: insSorted a bs

/-- Sort a list of strings by code-point order; models Python
`sorted(...)` on the (distinct) names of a directory. -/
def sortStr : List String → List String
  | [] => []
  | a :: rest => insSorted a (sortStr rest)

/-! ### Filesystem model -/

/-- A filesystem node: a regular file with text content, a directory, or
another kind of filesystem object (socket, broken symlink, ...) that
exists but is neither a regular file nor a directory. -/
inductive Node where
  | file (content : String)
  | dir
  | other
deriving DecidableEq, Repr

/-- The filesystem: an association list from absolute component paths to
nodes.  Later entries are shadowed by earlier ones. -/
abbrev FS := List (List String × Node)

def FS.find (fs : FS) (p : List String) : Option Node :=
  match fs with
  | [] => none
  | (q, n) :: rest => if q = p then some n else FS.find rest p

/-- Create or overwrite the node at `p`. -/
def FS.insert (fs : FS) (p : List String) (n : Node) : FS :=
  (p, n) :: fs

/-- OS-level errors (`OSError` subclasses in Python). -/
inductive OSErr where
  | enoent
  | enotdir
  | eexist
  | eisdir
  | enxio
deriving DecidableEq, Repr

/-- `str(e)` for an `OSError`; the exact text produced by the OS is
abstracted by these fixed strings. -/
def OSErr.msg : OSErr → String
  | .enoent => "[Errno 2] No such file or directory"
  | .enotdir => "[Errno 20] Not a directory"
  | .eexist => "[Errno 17] File exists"
  | .eisdir => "[Errno 21] Is a directory"
  | .enxio => "[Errno 6] No such device or address"

/-- POSIX path walk: resolve the components `rest` starting from the
absolute path `cur`.  Each step requires the current path to be an
existing directory; `".."` moves to the parent (the root is its own
parent), `"."` stays.  Returns the final absolute path. -/
def walkRes (fs : FS) : List String → List String → Except OSErr (List String)
  | cur, [] => .ok cur
  | cur, c :: rest =>
    match FS.find fs cur with
    | some .dir =>
      if c = ".." then walkRes fs cur.dropLast rest
      else if c = "." then walkRes fs cur rest
      else walkRes fs (cur ++ [c]) rest
    | some _ => .error .enotdir
    | none => .error .enoent

/-- `os.stat` through the walk: the node at a path, if the path
resolves and the target exists. -/
def statAt (fs : FS) (p : List String) : Option Node :=
  match walkRes fs [] p with
  | .ok q => FS.find fs q
  | .error _ => none

/-- `Path.exists()` (never raises: OS errors mean `False`). -/
def existsAt (fs : FS) (p : List String) : Bool :=
  (statAt fs p).isSome

/-- `Path.is_file()`: the target is a regular file. -/
def isFileAt (fs : FS) (p : List String) : Bool :=
  match statAt fs p with
  | some (.file _) => true
  | _ => false

/-- `Path.is_dir()`: the target is a directory. -/
def isDirAt (fs : FS) (p : List String) : Bool :=
  match statAt fs p with
  | some .dir => true
  | _ => false

/-- `stat().st_size` of a regular file (only consulted after
`is_file()` holds). -/
def sizeAt (fs : FS) (p : List String) : Nat :=
  match statAt fs p with
  | some (.file c) => utf8Len c
  | _ => 0

/-- `Path.read_text()`: the content of the regular file at `p`. -/
def os_read (fs : FS) (p : List String) : Except OSErr String :=
  match statAt fs p with
  | some (.file c) => .ok c
  | some .dir => .error .eisdir
  | some .other => .error .enxio
  | none => .error .enoent

/-- `Path.write_text(content)`: resolve `p`, then create or truncate
the regular file at the resolved target. -/
def os_write (fs : FS) (p : List String) (content : String) : Except OSErr FS :=
  match walkRes fs [] p with
  | .error e => .error e
  | .ok q =>
    match FS.find fs q with
    | some .dir => .error .eisdir
    | some .other => .error .enxio
    | _ => .ok (FS.insert fs q (.file content))

/-- `os.mkdir(p)`: resolve `p` (the parent chain must exist as
directories); fail with `EEXIST` if the resolved target already exists,
otherwise create a directory there. -/
def os_mkdir (fs : FS) (p : List String) : Except OSErr FS :=
  match walkRes fs [] p with
  | .error e => .error e
  | .ok q =>
    if (FS.find fs q).isSome then .error .eexist
    else .ok (FS.insert fs q .dir)

/-- `Path.mkdir(parents=True, exist_ok=True)`, following the pathlib
implementation: try `os.mkdir`; on `FileNotFoundError` recursively make
the parent then retry once (the retry re-raises `FileNotFoundError` and
applies the `exist_ok` check to other `OSError`s); on any other
`OSError` succeed exactly when the path is already a directory.
Returns the (possibly partially extended) filesystem together with the
error, if any.  `fuel` bounds the parent recursion. -/
def mkdirP : Nat → FS → List String → FS × Option OSErr
  | 0, fs, _ => (fs, some .enoent)
  | f + 1, fs, comps =>
    match os_mkdir fs comps with
    | .ok fsNew => (fsNew, none)
    | .error .enoent =>
      if comps = [] then (fs, some .enoent)
      else
        match mkdirP f fs comps.dropLast with
        | (fsPar, none) =>
          match os_mkdir fsPar comps with
          | .ok fsNew => (fsNew, none)
          | .error .enoent => (fsPar, some .enoent)
          | .error e => if isDirAt fsPar comps then (fsPar, none) else (fsPar, some e)
        | (fsPar, some e) => (fsPar, some e)
    | .error e => if isDirAt fs comps then (fs, none) else (fs, some e)

/-- The names of the immediate children of the directory at the
(already resolved) absolute path `p`. -/
def childNames (fs : FS) (p : List String) : List String :=
  (((fs.map Prod.fst).filter
      (fun q => decide (q ≠ [] ∧ q.dropLast = p))).map
    (fun q => q.getLastD "")).dedup

/-- `Path.iterdir()`: resolve `p`, require a directory, list the names
of its immediate children. -/
def os_listdir (fs : FS) (p : List String) : Except OSErr (List String) :=
  match walkRes fs [] p with
  | .error e => .error e
  | .ok q =>
    match FS.find fs q with
    | some .dir => .ok (childNames fs q)
    | some _ => .error .enotdir
    | none => .error .enoent

/-! ### The three operations -/

/-- One entry of a directory listing: the dict
`{"name": ..., "type": ...}` with an optional `"size"` key. -/
structure Entry where
  name : String
  type : String
  size : Option Nat
deriving DecidableEq, Repr

/-- Result dict of `read_file`. -/
inductive ReadResult where
  | success (content : String) (path : String) (size : Nat)
  | failure (error : String)
deriving DecidableEq, Repr

/-- Result dict of `write_file`. -/
inductive WriteResult where
  | success (path : String) (size : Nat)
  | failure (error : String)
deriving DecidableEq, Repr

/-- Result dict of `list_directory`. -/
inductive ListResult where
  | success (path : String) (entries : List Entry) (count : Nat)
  | failure (error : String)
deriving DecidableEq, Repr

/-- The cleaned relative components of a request path:
`Path(path.lstrip("/"))`. -/
def cleanOf (path : String) : List String :=
  parseRel (lstripSlash path)

/-- `full_path = CONFIG_BASE / clean_path` as components. -/
def fullOf (path : String) : List String :=
  "config" :: cleanOf path

/-- The entry built for one child `n` of `full_path`: type is
`"directory"` when `is_dir()` and `"file"` otherwise; the `size` key is
attached exactly when `is_file()`. -/
def mkEntry (fs : FS) (full : List String) (n : String) : Entry :=
  { name := n
    type := if isDirAt fs (full ++ [n]) then "directory" else "file"
    size := if isFileAt fs (full ++ [n]) then some (sizeAt fs (full ++ [n])) else none }

/-- The `try`-suite of `read_file`: guarded failures are returned
normally (`.ok (.failure ...)`), OS errors escape on the `.error`
channel. -/
def read_body (fs : FS) (path : String) : Except OSErr ReadResult :=
  if secCheck (fullOf path) = false then
    .ok (.failure "Access denied: Path outside /config directory")
  else if existsAt fs (fullOf path) = false then
    .ok (.failure ("File not found: " ++ path))
  else if isFileAt fs (fullOf path) = false then
    .ok (.failure ("Not a file: " ++ path))
  else
    match os_read fs (fullOf path) with
    | .error e => .error e
    | .ok content => .ok (.success content (cleanStr (cleanOf path)) content.length)

/-- `read_file`: the `try`-suite with the `except` clause converting
any OS error into a failure dict carrying `str(e)`. -/
def read_file (fs : FS) (path : String) : ReadResult :=
  match read_body fs path with
  | .ok r => r
  | .error e => .failure e.msg

/-- The `try`-suite of `write_file`; the filesystem component carries
mutations already performed when an error escapes. -/
def write_body (fs : FS) (path content : String) : FS × Except OSErr WriteResult :=
  if secCheck (fullOf path) = false then
    (fs, .ok (.failure "Access denied: Path outside /config directory"))
  else
    match mkdirP ((fullOf path).dropLast.length + 1) fs (fullOf path).dropLast with
    | (fsPar, some e) => (fsPar, .error e)
    | (fsPar, none) =>
      match os_write fsPar (fullOf path) content with
      | .error e => (fsPar, .error e)
      | .ok fsNew => (fsNew, .ok (.success (cleanStr (cleanOf path)) content.length))

/-- `write_file`: the `try`-suite with the `except` clause. -/
def write_file (fs : FS) (path content : String) : FS × WriteResult :=
  match write_body fs path content with
  | (fsNew, .ok r) => (fsNew, r)
  | (fsNew, .error e) => (fsNew, .failure e.msg)

/-- The cleaned components of the request path of `list_directory`:
`Path(path.lstrip("/")) if path else Path(".")`. -/
def cleanListOf (path : String) : List String :=
  if path = "" then [] else parseRel (lstripSlash path)

/-- `full_path` of `list_directory` as components. -/
def fullListOf (path : String) : List String :=
  "config" :: cleanListOf path

/-- The `try`-suite of `list_directory`. -/
def list_body (fs : FS) (path : String) : Except OSErr ListResult :=
  if secCheck (fullListOf path) = false then
    .ok (.failure "Access denied: Path outside /config directory")
  else if existsAt fs (fullListOf path) = false then
    .ok (.failure ("Directory not found: " ++ path))
  else if isDirAt fs (fullListOf path) = false then
    .ok (.failure ("Not a directory: " ++ path))
  else
    match os_listdir fs (fullListOf path) with
    | .error e => .error e
    | .ok names =>
      .ok (.success
            (if cleanStr (cleanListOf path) = "." then "" else cleanStr (cleanListOf path))
            ((sortStr names).map (mkEntry fs (fullListOf path)))
            ((sortStr names).map (mkEntry fs (fullListOf path))).length)

/-- `list_directory`: the `try`-suite with the `except` clause. -/
def list_directory (fs : FS) (path : String) : ListResult :=
  match list_body fs path with
  | .ok r => r
  | .error e => .failure e.msg

/-! ### Basic lemmas on components and strings -/

/-- A well-formed path component: nonempty, not `"."`, no separator
inside.  (`".."` is allowed: `parseRel` keeps traversal segments.) -/
def goodComp (c : String) : Prop :=
  c ≠ "" ∧ c ≠ "." ∧ '/' ∉ c.data

theorem string_mk_data (l : List Char) : (String.mk l).data = l := rfl

theorem mk_data_eq (c : String) : String.mk c.data = c := rfl

theorem data_append (a b : String) : (a ++ b).data = a.data ++ b.data := rfl

theorem mem_splitSlashAux_no_slash (cs : List Char) (acc : List Char)
    (hacc : '/' ∉ acc) : ∀ c ∈ splitSlashAux cs acc, '/' ∉ c.data := by
  induction cs generalizing acc with
  | nil =>
    intro c hc
    simp only [splitSlashAux, List.mem_singleton] at hc
    subst hc
    simpa [string_mk_data] using hacc
  | cons c0 rest ih =>
    intro c hc
    simp only [splitSlashAux] at hc
    by_cases h0 : c0 = '/'
    · rw [if_pos h0] at hc
      rcases List.mem_cons.mp hc with hc | hc
      · subst hc; simpa [string_mk_data] using hacc
      · exact ih [] (by simp) c hc
    · rw [if_neg h0] at hc
      have hacc2 : '/' ∉ c0 :: acc := by
        intro hm
        rcases List.mem_cons.mp hm with hm | hm
        · exact h0 hm.symm
        · exact hacc hm
      exact ih (c0 :: acc) hacc2 c hc

theorem mem_parseRel_good (s : String) : ∀ c ∈ parseRel s, goodComp c := by
  intro c hc
  have hmem := List.mem_filter.mp hc
  have hne : ¬(c == "" || c == ".") = true := by simpa using hmem.2
  rw [Bool.or_eq_true, not_or] at hne
  refine ⟨by simpa using hne.1, by simpa using hne.2, ?_⟩
  exact mem_splitSlashAux_no_slash s.data [] (by simp) c hmem.1

/-- `splitSlashAux` on a character list without separators. -/
theorem splitSlashAux_no_slash (cs : List Char) (h : '/' ∉ cs) :
    ∀ acc, splitSlashAux cs acc = [String.mk (acc.reverse ++ cs)] := by
  induction cs with
  | nil => intro acc; simp [splitSlashAux]
  | cons c0 rest ih =>
    intro acc
    have h0 : ¬(c0 = '/') := fun he => h (by simp [he])
    have hr : '/' ∉ rest := fun he => h (List.mem_cons_of_mem _ he)
    simp only [splitSlashAux]
    rw [if_neg h0, ih hr (c0 :: acc)]
    simp

/-- `splitSlashAux` across one separator. -/
theorem splitSlashAux_split (xs ys : List Char) (h : '/' ∉ xs) :
    ∀ acc, splitSlashAux (xs ++ '/' :: ys) acc =
      String.mk (acc.reverse ++ xs) :: splitSlashAux ys [] := by
  induction xs with
  | nil => intro acc; simp [splitSlashAux]
  | cons c0 rest ih =>
    intro acc
    have h0 : ¬(c0 = '/') := fun he => h (by simp [he])
    have hr : '/' ∉ rest := fun he => h (List.mem_cons_of_mem _ he)
    have hstep : (c0 :: rest) ++ '/' :: ys = c0 :: (rest ++ '/' :: ys) := rfl
    rw [hstep]
    simp only [splitSlashAux]
    rw [if_neg h0, ih hr (c0 :: acc)]
    simp

/-- Joining well-formed components and re-parsing gives them back. -/
theorem parseRel_joinSlash (l : List String) (h : ∀ c ∈ l, goodComp c) :
    parseRel (joinSlash l) = l := by
  induction l with
  | nil => rfl
  | cons c rest ih =>
    rcases h c (List.mem_cons_self _ _) with ⟨hne, hdot, hsl⟩
    have hkeep : (!(c == "" || c == ".")) = true := by simp [hne, hdot]
    cases rest with
    | nil =>
      show parseRel (joinSlash [c]) = [c]
      unfold parseRel splitSlash joinSlash
      rw [splitSlashAux_no_slash c.data hsl []]
      rw [List.filter_cons]
      simp only [List.reverse_nil, List.nil_append, mk_data_eq]
      rw [if_pos hkeep]
      rfl
    | cons d rest2 =>
      have hrest := ih (fun x hx => h x (List.mem_cons_of_mem _ hx))
      show parseRel (c ++ "/" ++ joinSlash (d :: rest2)) = _
      unfold parseRel splitSlash
      have hdata : (c ++ "/" ++ joinSlash (d :: rest2)).data
          = c.data ++ '/' :: (joinSlash (d :: rest2)).data := by
        rw [data_append, data_append, List.append_assoc]
        rfl
      rw [hdata, splitSlashAux_split c.data _ hsl []]
      rw [List.filter_cons]
      simp only [List.reverse_nil, List.nil_append, mk_data_eq]
      rw [if_pos hkeep]
      exact congrArg (c :: ·) hrest

/-- The first character of a join of well-formed components is never a
separator, so `lstrip("/")` leaves it unchanged. -/
theorem lstripSlash_joinSlash (l : List String) (h : ∀ c ∈ l, goodComp c) :
    lstripSlash (joinSlash l) = joinSlash l := by
  cases l with
  | nil => rfl
  | cons c rest =>
    rcases h c (List.mem_cons_self _ _) with ⟨hne, -, hsl⟩
    have hcd : c.data ≠ [] := by
      intro he
      exact hne (String.ext (he.trans rfl))
    obtain ⟨t, ht⟩ : ∃ t, (joinSlash (c :: rest)).data = c.data ++ t := by
      cases rest with
      | nil => exact ⟨[], by simp [joinSlash]⟩
      | cons d rest2 =>
        refine ⟨'/' :: (joinSlash (d :: rest2)).data, ?_⟩
        show (c ++ "/" ++ joinSlash (d :: rest2)).data = _
        rw [data_append, data_append, List.append_assoc]
        rfl
    obtain ⟨c0, cs, hc⟩ := List.exists_cons_of_ne_nil hcd
    have hc0 : ¬(c0 = '/') := by
      intro he
      exact hsl (by rw [hc, he]; exact List.mem_cons_self _ _)
    apply String.ext
    show ((joinSlash (c :: rest)).data.dropWhile (fun x => x = '/')) = _
    rw [ht, hc, List.cons_append, List.dropWhile_cons]
    rw [if_neg (by simpa using hc0)]

theorem lstripSlash_slash_append (s : String) :
    lstripSlash ("/" ++ s) = lstripSlash s := by
  apply String.ext
  show (("/" ++ s).data.dropWhile (fun x => x = '/')) = _
  rw [data_append]
  show ('/' :: s.data).dropWhile (fun x => x = '/') = _
  rw [List.dropWhile_cons, if_pos (by simp)]
  rfl

/-! ### Lexical resolution lemmas -/

/-- `resolveAux` on dot-free components just appends them. -/
theorem resolveAux_no_dots (l : List String) (h : ∀ c ∈ l, c ≠ "." ∧ c ≠ "..") :
    ∀ acc, resolveAux acc l = acc ++ l := by
  induction l with
  | nil => intro acc; simp [resolveAux]
  | cons c rest ih =>
    intro acc
    rcases h c (List.mem_cons_self _ _) with ⟨h1, h2⟩
    simp only [resolveAux]
    rw [if_neg h1, if_neg h2, ih (fun x hx => h x (List.mem_cons_of_mem _ hx)) (acc ++ [c])]
    simp

theorem resolveAbs_no_dots (l : List String) (h : ∀ c ∈ l, c ≠ "." ∧ c ≠ "..") :
    resolveAbs l = l := by
  rw [resolveAbs, resolveAux_no_dots l h []]
  rfl

/-- Every component of a resolved path is a dot-free component of the
input. -/
theorem mem_resolveAux (l : List String) :
    ∀ acc, ∀ x ∈ resolveAux acc l, x ∈ acc ∨ (x ∈ l ∧ x ≠ "." ∧ x ≠ "..") := by
  induction l with
  | nil => intro acc x hx; exact .inl (by simpa [resolveAux] using hx)
  | cons c rest ih =>
    intro acc x hx
    simp only [resolveAux] at hx
    by_cases h1 : c = "."
    · rw [if_pos h1] at hx
      rcases ih acc x hx with h | h
      · exact .inl h
      · exact .inr ⟨List.mem_cons_of_mem _ h.1, h.2⟩
    · rw [if_neg h1] at hx
      by_cases h2 : c = ".."
      · rw [if_pos h2] at hx
        rcases ih acc.dropLast x hx with h | h
        · exact .inl (List.dropLast_subset _ h)
        · exact .inr ⟨List.mem_cons_of_mem _ h.1, h.2⟩
      · rw [if_neg h2] at hx
        rcases ih (acc ++ [c]) x hx with h | h
        · rcases List.mem_append.mp h with h | h
          · exact .inl h
          · have hxc : x = c := by simpa using h
            subst hxc
            exact .inr ⟨List.mem_cons_self _ _, h1, h2⟩
        · exact .inr ⟨List.mem_cons_of_mem _ h.1, h.2⟩

theorem listStarts_append (xs : List Char) : ∀ ys, listStarts (xs ++ ys) xs = true := by
  induction xs with
  | nil => intro ys; cases ys <;> rfl
  | cons a as ih => intro ys; simp [listStarts, ih]

theorem strStarts_of_data (s p : String) (h : ∃ t, s.data = p.data ++ t) :
    strStarts s p = true := by
  rcases h with ⟨t, ht⟩
  unfold strStarts
  rw [ht]
  exact listStarts_append _ _

/-- A dot-free path under `/config` always passes the security check
(its rendered string extends the string `"/config"`). -/
theorem secCheck_no_dots (l : List String) (h : ∀ c ∈ l, c ≠ "." ∧ c ≠ "..") :
    secCheck ("config" :: l) = true := by
  unfold secCheck
  have hr : resolveAbs ("config" :: l) = "config" :: l := by
    apply resolveAbs_no_dots
    intro c hc
    rcases List.mem_cons.mp hc with hc | hc
    · subst hc; exact ⟨by decide, by decide⟩
    · exact h c hc
  rw [hr]
  apply strStarts_of_data
  cases l with
  | nil => exact ⟨[], by rfl⟩
  | cons d rest =>
    refine ⟨'/' :: (joinSlash (d :: rest)).data, ?_⟩
    show ("/" ++ ("config" ++ "/" ++ joinSlash (d :: rest))).data = _
    rw [data_append, data_append, data_append]
    rfl

/-! ### Filesystem walk lemmas -/

theorem find_insert_self (fs : FS) (p : List String) (n : Node) :
    FS.find (FS.insert fs p n) p = some n := by
  simp [FS.insert, FS.find]

theorem find_insert_ne (fs : FS) (p : List String) (n : Node) (q : List String)
    (h : q ≠ p) : FS.find (FS.insert fs p n) q = FS.find fs q := by
  simp only [FS.insert, FS.find]
  rw [if_neg (fun he => h he.symm)]

theorem statAt_eq_find_of_walk (fs : FS) (p q : List String)
    (h : walkRes fs [] p = .ok q) : statAt fs p = FS.find fs q := by
  simp [statAt, h]

/-- A walk over dot-free components succeeds when every intermediate
path is a directory, and lands on the concatenation. -/
theorem walkRes_clean_ok (fs : FS) (rest : List String)
    (h : ∀ c ∈ rest, c ≠ "." ∧ c ≠ "..") :
    ∀ cur, (∀ k, k < rest.length → FS.find fs (cur ++ rest.take k) = some .dir) →
      walkRes fs cur rest = .ok (cur ++ rest) := by
  induction rest with
  | nil => intro cur _; simp [walkRes]
  | cons c rest ih =>
    intro cur hdir
    have h0 : FS.find fs cur = some .dir := by
      simpa using hdir 0 (by simp)
    rcases h c (List.mem_cons_self _ _) with ⟨h1, h2⟩
    simp only [walkRes, h0]
    rw [if_neg h2, if_neg h1]
    have hsub : ∀ k, k < rest.length →
        FS.find fs ((cur ++ [c]) ++ rest.take k) = some .dir := by
      intro k hk
      have := hdir (k + 1) (by simpa using Nat.succ_lt_succ hk)
      simpa [List.take_succ_cons, List.append_assoc] using this
    rw [ih (fun x hx => h x (List.mem_cons_of_mem _ hx)) (cur ++ [c]) hsub]
    simp

/-- Inversion: a successful walk over dot-free components lands on the
concatenation, and every intermediate path is a directory. -/
theorem walkRes_clean_inv (fs : FS) (rest : List String)
    (h : ∀ c ∈ rest, c ≠ "." ∧ c ≠ "..") :
    ∀ cur P, walkRes fs cur rest = .ok P →
      P = cur ++ rest ∧ ∀ k, k < rest.length → FS.find fs (cur ++ rest.take k) = some .dir := by
  induction rest with
  | nil =>
    intro cur P hw
    refine ⟨?_, by simp⟩
    simpa [walkRes] using (Except.ok.inj hw).symm
  | cons c rest ih =>
    intro cur P hw
    rcases h c (List.mem_cons_self _ _) with ⟨h1, h2⟩
    simp only [walkRes] at hw
    cases hf : FS.find fs cur with
    | none => rw [hf] at hw; exact absurd hw (by simp)
    | some n =>
      cases n with
      | file content => rw [hf] at hw; exact absurd hw (by simp)
      | other => rw [hf] at hw; exact absurd hw (by simp)
      | dir =>
        rw [hf] at hw
        rw [if_neg h2, if_neg h1] at hw
        rcases ih (fun x hx => h x (List.mem_cons_of_mem _ hx)) (cur ++ [c]) P hw with ⟨hP, hdir⟩
        constructor
        · rw [hP]; simp
        · intro k hk
          match k with
          | 0 => simpa using hf
          | k + 1 =>
            have := hdir k (by simpa using Nat.lt_of_succ_lt_succ hk)
            simpa [List.take_succ_cons, List.append_assoc] using this

/-- A walk over dot-free components whose intermediate paths are all
absent-or-directory, with at least one absent, fails with `ENOENT`. -/
theorem walkRes_clean_enoent (fs : FS) (rest : List String)
    (h : ∀ c ∈ rest, c ≠ "." ∧ c ≠ "..") :
    ∀ cur,
      (∀ k, k < rest.length →
        FS.find fs (cur ++ rest.take k) = none ∨ FS.find fs (cur ++ rest.take k) = some .dir) →
      ¬(∀ k, k < rest.length → FS.find fs (cur ++ rest.take k) = some .dir) →
      walkRes fs cur rest = .error .enoent := by
  induction rest with
  | nil => intro cur _ hnot; exact absurd (by simp) hnot
  | cons c rest ih =>
    intro cur hok hnot
    rcases h c (List.mem_cons_self _ _) with ⟨h1, h2⟩
    rcases hok 0 (by simp) with h0 | h0
    · simp only [walkRes]
      rw [show cur ++ (c :: rest).take 0 = cur by simp] at h0
      rw [h0]
    · rw [show cur ++ (c :: rest).take 0 = cur by simp] at h0
      simp only [walkRes, h0]
      rw [if_neg h2, if_neg h1]
      apply ih (fun x hx => h x (List.mem_cons_of_mem _ hx)) (cur ++ [c])
      · intro k hk
        have := hok (k + 1) (by simpa using Nat.succ_lt_succ hk)
        simpa [List.take_succ_cons, List.append_assoc] using this
      · intro hall
        apply hnot
        intro k hk
        match k with
        | 0 => simpa using h0
        | k + 1 =>
          have := hall k (by simpa using Nat.lt_of_succ_lt_succ hk)
          simpa [List.take_succ_cons, List.append_assoc] using this

/-- Appending to the components of a successful walk continues from its
result. -/
theorem walkRes_append_ok (fs : FS) (a : List String) :
    ∀ cur q b, walkRes fs cur a = .ok q → walkRes fs cur (a ++ b) = walkRes fs q b := by
  induction a with
  | nil =>
    intro cur q b hw
    have hq : cur = q := by simpa [walkRes] using hw
    subst hq
    rfl
  | cons c rest ih =>
    intro cur q b hw
    simp only [walkRes] at hw
    cases hf : FS.find fs cur with
    | none => rw [hf] at hw; exact absurd hw (by simp)
    | some n =>
      cases n with
      | file content => rw [hf] at hw; exact absurd hw (by simp)
      | other => rw [hf] at hw; exact absurd hw (by simp)
      | dir =>
        rw [hf] at hw
        show walkRes fs cur (c :: (rest ++ b)) = _
        simp only [walkRes, hf]
        by_cases h2 : c = ".."
        · rw [if_pos h2] at hw ⊢
          exact ih _ q b hw
        · rw [if_neg h2] at hw ⊢
          by_cases h1 : c = "."
          · rw [if_pos h1] at hw ⊢
            exact ih _ q b hw
          · rw [if_neg h1] at hw ⊢
            exact ih _ q b hw

/-- Inserting a node at a path that is not a directory of `fs` does not
disturb any successful walk of `fs`. -/
theorem walkRes_insert_of_ne_dir (fs : FS) (v : Node) (P : List String)
    (hP : FS.find fs P ≠ some .dir) (rest : List String) :
    ∀ cur q, walkRes fs cur rest = .ok q →
      walkRes (FS.insert fs P v) cur rest = .ok q := by
  induction rest with
  | nil => intro cur q hw; exact hw
  | cons c rest ih =>
    intro cur q hw
    simp only [walkRes] at hw
    cases hf : FS.find fs cur with
    | none => rw [hf] at hw; exact absurd hw (by simp)
    | some n =>
      cases n with
      | file content => rw [hf] at hw; exact absurd hw (by simp)
      | other => rw [hf] at hw; exact absurd hw (by simp)
      | dir =>
        rw [hf] at hw
        have hcur : cur ≠ P := by
          intro he
          rw [he] at hf
          exact hP hf
        have hfi : FS.find (FS.insert fs P v) cur = some .dir := by
          rw [find_insert_ne fs P v cur hcur, hf]
        simp only [walkRes, hfi]
        by_cases h2 : c = ".."
        · rw [if_pos h2] at hw ⊢
          exact ih _ q hw
        · rw [if_neg h2] at hw ⊢
          by_cases h1 : c = "."
          · rw [if_pos h1] at hw ⊢
            exact ih _ q hw
          · rw [if_neg h1] at hw ⊢
            exact ih _ q hw

/-! ### Operation-level helper lemmas -/

theorem cleanListOf_eq_cleanOf (p : String) : cleanListOf p = cleanOf p := by
  unfold cleanListOf cleanOf
  by_cases h : p = ""
  · subst h
    rw [if_pos rfl]
    decide
  · rw [if_neg h]

theorem fullListOf_eq_fullOf (p : String) : fullListOf p = fullOf p := by
  rw [fullListOf, fullOf, cleanListOf_eq_cleanOf]

/-! ### Claim C1 -/

/-- The filesystem used to exercise the containment check: a sibling
directory `/config2` whose absolute path shares the string `/config` as
a prefix, holding a file that lies outside the sandbox root. -/
def fsC1 : FS :=
  [([], .dir), (["config"], .dir),
   (["config2"], .dir), (["config2", "secret"], .file "top-secret")]

/-- C1: the claim says every request path whose canonical resolution
lies outside `/config` is rejected with the containment failure and no
filesystem read happens, because the containment comparison is
component-wise.  The code instead compares with a naive string
`startswith`: the request `"../config2/secret"` canonically resolves to
`/config2/secret`, outside the root, yet the check passes and the file
is read and returned.  This theorem evaluates the code at that failing
input. -/
theorem c1_containment_bypass_eval :
    resolveAbs (fullOf "../config2/secret") = ["config2", "secret"] ∧
    secCheck (fullOf "../config2/secret") = true ∧
    read_file fsC1 "../config2/secret" =
      .success "top-secret" "../config2/secret" 10 := by
  decide

/-! ### Claim C2 (counterexample) -/

/-- Filesystem for the C2 counterexample: `/config/b` exists, the
traversal step `a` does not. -/
def fsC2 : FS :=
  [([], .dir), (["config"], .dir), (["config", "b"], .file "x")]

/-- C2 counterexample: `"a/../b"` canonically resolves to `/config/b`,
inside root, and `read_file "b"` succeeds — but `read_file "a/../b"`
does not return the same result: the OS path walk requires the
intermediate `a` to exist, so the call fails with `File not found`
(and even on success the reported path field would echo `"a/../b"`,
not `"b"`). -/
theorem c2_counterexample :
    resolveAbs (fullOf "a/../b") = ["config", "b"] ∧
    read_file fsC2 "a/../b" = .failure "File not found: a/../b" ∧
    read_file fsC2 "b" = .success "x" "b" 1 := by
  decide

/-! ### Claim C4 -/

/-- C4: every OS error escaping an operation's `try`-suite is caught at
the operation boundary and converted into a `Failure` result carrying
the error's description (`str(e)`); no operation propagates it
further. -/
theorem c4_os_errors_become_failures (fs : FS) (p c : String) (e : OSErr) :
    (read_body fs p = .error e → read_file fs p = .failure (OSErr.msg e)) ∧
    (∀ fs2, write_body fs p c = (fs2, .error e) →
      write_file fs p c = (fs2, .failure (OSErr.msg e))) ∧
    (list_body fs p = .error e → list_directory fs p = .failure (OSErr.msg e)) := by
  refine ⟨?_, ?_, ?_⟩
  · intro h
    unfold read_file
    rw [h]
  · intro fs2 h
    unfold write_file
    rw [h]
  · intro h
    unfold list_directory
    rw [h]

/-- Filesystem for the C4 witness: `/config/f` is a regular file, so
creating parent directories for `f/sub/a` raises `ENOTDIR`. -/
def fsC4 : FS :=
  [([], .dir), (["config"], .dir), (["config", "f"], .file "x")]

theorem c4_witness :
    write_body fsC4 "f/sub/a" "y" = (fsC4, .error .enotdir) ∧
    write_file fsC4 "f/sub/a" "y" = (fsC4, .failure (OSErr.msg .enotdir)) :=
  ⟨rfl,
   (c4_os_errors_become_failures fsC4 "f/sub/a" "y" .enotdir).2.1 fsC4 rfl⟩

/-! ### Claim C6 (counterexample) -/

/-- Filesystem for the C6 counterexample: `/config/f` is a regular
file blocking the parent chain of `f/sub/a`. -/
def fsC6 : FS :=
  [([], .dir), (["config"], .dir), (["config", "f"], .file "x")]

/-- C6 counterexample: the request `"f/sub/a"` resolves inside root and
its parent directories `f` and `f/sub` do not exist as directories, yet
`write_file` fails (with the OS `ENOTDIR` error), because the existing
regular file `/config/f` blocks the parent-directory creation.  The
claim predicted success for every such path. -/
theorem c6_counterexample :
    secCheck (fullOf "f/sub/a") = true ∧
    resolveAbs (fullOf "f/sub/a") = ["config", "f", "sub", "a"] ∧
    isDirAt fsC6 ["config", "f", "sub"] = false ∧
    write_file fsC6 "f/sub/a" "y" = (fsC6, .failure (OSErr.msg .enotdir)) := by
  decide

/-! ### Claim C7 (counterexample) -/

/-- Filesystem for the C7 counterexample: `/config/sock` exists but is
neither a regular file nor a directory. -/
def fsC7 : FS :=
  [([], .dir), (["config"], .dir), (["config", "sock"], .other)]

/-- C7 counterexample: listing the root of `fsC7` yields an entry with
type `"file"` and *no* size field (the child exists but is not a
regular file), refuting the claim that a size field is present exactly
when the type is `"file"`. -/
theorem c7_counterexample :
    list_directory fsC7 "" =
      .success "" [{ name := "sock", type := "file", size := none }] 1 ∧
    (Entry.mk "sock" "file" none).type = "file" ∧
    (Entry.mk "sock" "file" none).size = none := by
  decide

/-! ### Claim C8 -/

/-- C8: for request paths passing containment, `read_file` reports
`"File not found: <p>"` / `"Not a file: <p>"` and `list_directory`
reports `"Directory not found: <p>"` / `"Not a directory: <p>"`, where
`<p>` is the original caller-supplied string, not a canonical form. -/
theorem c8_not_found_wrong_type_messages (fs : FS) (p : String) :
    (secCheck (fullOf p) = true → existsAt fs (fullOf p) = false →
      read_file fs p = .failure ("File not found: " ++ p)) ∧
    (secCheck (fullOf p) = true → existsAt fs (fullOf p) = true →
      isFileAt fs (fullOf p) = false →
      read_file fs p = .failure ("Not a file: " ++ p)) ∧
    (secCheck (fullOf p) = true → existsAt fs (fullOf p) = false →
      list_directory fs p = .failure ("Directory not found: " ++ p)) ∧
    (secCheck (fullOf p) = true → existsAt fs (fullOf p) = true →
      isDirAt fs (fullOf p) = false →
      list_directory fs p = .failure ("Not a directory: " ++ p)) := by
  refine ⟨?_, ?_, ?_, ?_⟩
  · intro hsec hex
    unfold read_file read_body
    rw [hsec, hex]
    rw [if_neg (by decide), if_pos rfl]
  · intro hsec hex hfi
    unfold read_file read_body
    rw [hsec, hex, hfi]
    rw [if_neg (by decide), if_neg (by decide), if_pos rfl]
  · intro hsec hex
    unfold list_directory list_body
    rw [fullListOf_eq_fullOf, hsec, hex]
    rw [if_neg (by decide), if_pos rfl]
  · intro hsec hex hdir
    unfold list_directory list_body
    rw [fullListOf_eq_fullOf, hsec, hex, hdir]
    rw [if_neg (by decide), if_neg (by decide), if_pos rfl]

/-- Filesystem for the C8 witness: a directory `d` and a file `f.txt`
inside `/config`. -/
def fsC8 : FS :=
  [([], .dir), (["config"], .dir), (["config", "d"], .dir),
   (["config", "f.txt"], .file "hi")]

theorem c8_witness :
    read_file fsC8 "missing.txt" = .failure "File not found: missing.txt" ∧
    read_file fsC8 "d" = .failure "Not a file: d" ∧
    list_directory fsC8 "nodir" = .failure "Directory not found: nodir" ∧
    list_directory fsC8 "f.txt" = .failure "Not a directory: f.txt" :=
  ⟨(c8_not_found_wrong_type_messages fsC8 "missing.txt").1 (by decide) (by decide),
   (c8_not_found_wrong_type_messages fsC8 "d").2.1 (by decide) (by decide) (by decide),
   (c8_not_found_wrong_type_messages fsC8 "nodir").2.2.1 (by decide) (by decide),
   (c8_not_found_wrong_type_messages fsC8 "f.txt").2.2.2 (by decide) (by decide) (by decide)⟩

/-! ### Claim C9 -/

/-- C9: in a successful `list_directory` result, a child that is not a
directory is reported with type `"file"`, and when it is additionally
not a regular file (socket, broken symlink, ...) no size field is
attached. -/
theorem c9_non_regular_children (fs : FS) (p rp : String)
    (entries : List Entry) (cnt : Nat)
    (hs : list_directory fs p = .success rp entries cnt) :
    ∀ e ∈ entries, isDirAt fs (fullListOf p ++ [e.name]) = false →
      e.type = "file" ∧
      (isFileAt fs (fullListOf p ++ [e.name]) = false → e.size = none) := by
  intro e he hdir
  unfold list_directory list_body at hs
  by_cases h1 : secCheck (fullListOf p) = false
  · rw [if_pos h1] at hs
    exact ListResult.noConfusion hs
  rw [if_neg h1] at hs
  by_cases h2 : existsAt fs (fullListOf p) = false
  · rw [if_pos h2] at hs
    exact ListResult.noConfusion hs
  rw [if_neg h2] at hs
  by_cases h3 : isDirAt fs (fullListOf p) = false
  · rw [if_pos h3] at hs
    exact ListResult.noConfusion hs
  rw [if_neg h3] at hs
  cases hld : os_listdir fs (fullListOf p) with
  | error e2 =>
    rw [hld] at hs
    exact ListResult.noConfusion hs
  | ok names =>
    rw [hld] at hs
    have hent : entries = (sortStr names).map (mkEntry fs (fullListOf p)) := by
      cases hs
      rfl
    rw [hent] at he
    rcases List.mem_map.mp he with ⟨n, hn, hme⟩
    subst hme
    have hname : (mkEntry fs (fullListOf p) n).name = n := rfl
    rw [hname] at hdir ⊢
    constructor
    · show (if isDirAt fs (fullListOf p ++ [n]) then "directory" else "file") = "file"
      rw [hdir]
      rfl
    · intro hfile
      show (if isFileAt fs (fullListOf p ++ [n])
            then some (sizeAt fs (fullListOf p ++ [n])) else none) = none
      rw [hfile]
      rfl

/-- Filesystem for the C9 witness. -/
def fsC9 : FS :=
  [([], .dir), (["config"], .dir), (["config", "sock"], .other)]

theorem c9_witness :
    (Entry.mk "sock" "file" none).type = "file" ∧
    (isFileAt fsC9 (fullListOf "" ++ ["sock"]) = false →
      (Entry.mk "sock" "file" none).size = none) :=
  c9_non_regular_children fsC9 "" "" [Entry.mk "sock" "file" none] 1
    (by decide) (Entry.mk "sock" "file" none) (by decide) (by decide)

/-! ### Claim C10 -/

/-- C10: calling `read_file` with the empty string resolves to the root
directory itself, passes the containment check, and fails in the
wrong-type branch with the message `"Not a file: "` (empty original
path); it is not a containment failure and no content is read. -/
theorem c10_read_empty_path (fs : FS)
    (h0 : FS.find fs [] = some .dir)
    (h1 : FS.find fs ["config"] = some .dir) :
    read_file fs "" = .failure "Not a file: " := by
  have hfull : fullOf "" = ["config"] := by decide
  have hwalk : walkRes fs [] (fullOf "") = .ok ["config"] := by
    rw [hfull]
    simp only [walkRes, h0]
    rw [if_neg (by decide), if_neg (by decide)]
    simp [walkRes]
  have hstat : statAt fs (fullOf "") = some .dir := by
    rw [statAt_eq_find_of_walk fs _ _ hwalk, h1]
  have hex : existsAt fs (fullOf "") = true := by
    rw [existsAt, hstat]
    rfl
  have hfi : isFileAt fs (fullOf "") = false := by
    unfold isFileAt
    rw [hstat]
  have hsec : secCheck (fullOf "") = true := by decide
  unfold read_file read_body
  rw [hsec, hex, hfi]
  rw [if_neg (by decide), if_neg (by decide), if_pos rfl]
  rfl

/-- Filesystem for the C10 witness: just the root and `/config`. -/
def fsC10 : FS :=
  [([], .dir), (["config"], .dir)]

theorem c10_witness : read_file fsC10 "" = .failure "Not a file: " :=
  c10_read_empty_path fsC10 (by decide) (by decide)

/-- Characterization of a successful `read_file`. -/
theorem read_file_success_iff (fs : FS) (p ct rp : String) (sz : Nat) :
    read_file fs p = .success ct rp sz ↔
      (secCheck (fullOf p) = true ∧ existsAt fs (fullOf p) = true ∧
        isFileAt fs (fullOf p) = true ∧ os_read fs (fullOf p) = .ok ct ∧
        rp = cleanStr (cleanOf p) ∧ sz = ct.length) := by
  unfold read_file read_body
  by_cases hsec : secCheck (fullOf p) = false
  · rw [if_pos hsec]
    constructor
    · intro h
      exact ReadResult.noConfusion h
    · rintro ⟨h1, -⟩
      exact absurd (hsec.symm.trans h1) (by decide)
  rw [if_neg hsec]
  have hsec2 : secCheck (fullOf p) = true := by
    cases hb : secCheck (fullOf p) with
    | false => exact absurd hb hsec
    | true => rfl
  by_cases hex : existsAt fs (fullOf p) = false
  · rw [if_pos hex]
    constructor
    · intro h
      exact ReadResult.noConfusion h
    · rintro ⟨-, h2, -⟩
      exact absurd (hex.symm.trans h2) (by decide)
  rw [if_neg hex]
  have hex2 : existsAt fs (fullOf p) = true := by
    cases hb : existsAt fs (fullOf p) with
    | false => exact absurd hb hex
    | true => rfl
  by_cases hfi : isFileAt fs (fullOf p) = false
  · rw [if_pos hfi]
    constructor
    · intro h
      exact ReadResult.noConfusion h
    · rintro ⟨-, -, h3, -⟩
      exact absurd (hfi.symm.trans h3) (by decide)
  rw [if_neg hfi]
  have hfi2 : isFileAt fs (fullOf p) = true := by
    cases hb : isFileAt fs (fullOf p) with
    | false => exact absurd hb hfi
    | true => rfl
  cases hrd : os_read fs (fullOf p) with
  | error e =>
    constructor
    · intro h
      exact ReadResult.noConfusion h
    · rintro ⟨-, -, -, h4, -⟩
      exact Except.noConfusion h4
  | ok content =>
    constructor
    · intro h
      injection h with h1 h2 h3
      subst h1
      exact ⟨hsec2, hex2, hfi2, rfl, h2.symm, h3.symm⟩
    · rintro ⟨-, -, -, h4, h5, h6⟩
      have hc : content = ct := Except.ok.inj h4
      subst hc
      rw [h5, h6]

/-- Characterization of a successful `list_directory`. -/
theorem list_directory_success_iff (fs : FS) (p rp : String)
    (es : List Entry) (cnt : Nat) :
    list_directory fs p = .success rp es cnt ↔
      (secCheck (fullListOf p) = true ∧ existsAt fs (fullListOf p) = true ∧
        isDirAt fs (fullListOf p) = true ∧
        ∃ names, os_listdir fs (fullListOf p) = .ok names ∧
          es = (sortStr names).map (mkEntry fs (fullListOf p)) ∧
          cnt = es.length ∧
          rp = (if cleanStr (cleanListOf p) = "." then "" else cleanStr (cleanListOf p))) := by
  unfold list_directory list_body
  by_cases hsec : secCheck (fullListOf p) = false
  · rw [if_pos hsec]
    constructor
    · intro h
      exact ListResult.noConfusion h
    · rintro ⟨h1, -⟩
      exact absurd (hsec.symm.trans h1) (by decide)
  rw [if_neg hsec]
  have hsec2 : secCheck (fullListOf p) = true := by
    cases hb : secCheck (fullListOf p) with
    | false => exact absurd hb hsec
    | true => rfl
  by_cases hex : existsAt fs (fullListOf p) = false
  · rw [if_pos hex]
    constructor
    · intro h
      exact ListResult.noConfusion h
    · rintro ⟨-, h2, -⟩
      exact absurd (hex.symm.trans h2) (by decide)
  rw [if_neg hex]
  have hex2 : existsAt fs (fullListOf p) = true := by
    cases hb : existsAt fs (fullListOf p) with
    | false => exact absurd hb hex
    | true => rfl
  by_cases hdi : isDirAt fs (fullListOf p) = false
  · rw [if_pos hdi]
    constructor
    · intro h
      exact ListResult.noConfusion h
    · rintro ⟨-, -, h3, -⟩
      exact absurd (hdi.symm.trans h3) (by decide)
  rw [if_neg hdi]
  have hdi2 : isDirAt fs (fullListOf p) = true := by
    cases hb : isDirAt fs (fullListOf p) with
    | false => exact absurd hb hdi
    | true => rfl
  cases hld : os_listdir fs (fullListOf p) with
  | error e =>
    constructor
    · intro h
      exact ListResult.noConfusion h
    · rintro ⟨-, -, -, names, h4, -⟩
      exact Except.noConfusion h4
  | ok names =>
    constructor
    · intro h
      injection h with h1 h2 h3
      exact ⟨hsec2, hex2, hdi2, names, rfl, h2.symm, by rw [← h2, ← h3], h1.symm⟩
    · rintro ⟨-, -, -, names2, h4, h5, h6, h7⟩
      have hn : names = names2 := Except.ok.inj h4
      subst hn
      rw [h5] at h6
      rw [h5, h6, h7]

/-- The value of `write_body` after the security check passed and the
parent-directory creation succeeded. -/
theorem write_body_after_mkdir (fs fsPar : FS) (p c : String)
    (hsec : secCheck (fullOf p) = true)
    (hmk : mkdirP ((fullOf p).dropLast.length + 1) fs (fullOf p).dropLast
      = (fsPar, none)) :
    write_body fs p c =
      match os_write fsPar (fullOf p) c with
      | .error e => (fsPar, .error e)
      | .ok fsNew => (fsNew, .ok (.success (cleanStr (cleanOf p)) c.length)) := by
  unfold write_body
  rw [hsec, if_neg (by decide), hmk]

/-- Characterization of a successful `write_file`. -/
theorem write_file_success_iff (fs fs2 : FS) (p c rp : String) (sz : Nat) :
    write_file fs p c = (fs2, .success rp sz) ↔
      (secCheck (fullOf p) = true ∧
        ∃ fsPar, mkdirP ((fullOf p).dropLast.length + 1) fs (fullOf p).dropLast
            = (fsPar, none) ∧
          os_write fsPar (fullOf p) c = .ok fs2 ∧
          rp = cleanStr (cleanOf p) ∧ sz = c.length) := by
  by_cases hsec : secCheck (fullOf p) = false
  · have hwb : write_body fs p c
        = (fs, .ok (.failure "Access denied: Path outside /config directory")) := by
      unfold write_body
      rw [if_pos hsec]
    constructor
    · intro h
      unfold write_file at h
      rw [hwb] at h
      injection h with h1 h2
      exact WriteResult.noConfusion h2
    · rintro ⟨h1, -⟩
      exact absurd (hsec.symm.trans h1) (by decide)
  have hsec2 : secCheck (fullOf p) = true := by
    cases hb : secCheck (fullOf p) with
    | false => exact absurd hb hsec
    | true => rfl
  rcases hmk : mkdirP ((fullOf p).dropLast.length + 1) fs (fullOf p).dropLast
    with ⟨fsPar, oe⟩
  cases oe with
  | some e =>
    have hwb : write_body fs p c = (fsPar, .error e) := by
      unfold write_body
      rw [hsec2, if_neg (by decide), hmk]
    constructor
    · intro h
      unfold write_file at h
      rw [hwb] at h
      injection h with h1 h2
      exact WriteResult.noConfusion h2
    · rintro ⟨-, fsPar2, h2, -⟩
      injection h2 with h3 h4
      exact Option.noConfusion h4
  | none =>
    have hwb := write_body_after_mkdir fs fsPar p c hsec2 hmk
    cases hwr : os_write fsPar (fullOf p) c with
    | error e =>
      constructor
      · intro h
        unfold write_file at h
        rw [hwb, hwr] at h
        injection h with h1 h2
        exact WriteResult.noConfusion h2
      · rintro ⟨-, fsPar2, h2, h3, -⟩
        injection h2 with h4 h5
        subst h4
        exact Except.noConfusion (hwr.symm.trans h3)
    | ok fsNew =>
      constructor
      · intro h
        unfold write_file at h
        rw [hwb, hwr] at h
        injection h with h1 h2
        injection h2 with h3 h4
        subst h1
        exact ⟨hsec2, fsPar, rfl, hwr, h3.symm, h4.symm⟩
      · rintro ⟨-, fsPar2, h2, h3, h5, h6⟩
        injection h2 with h4 h7
        subst h4
        have hn : fsNew = fs2 := Except.ok.inj (hwr.symm.trans h3)
        subst hn
        unfold write_file
        rw [hwb, hwr, h5, h6]

/-! ### Claim C5 -/

/-- C5: leading path separators are stripped before joining to the
root, so an absolute-looking request behaves exactly like its
root-relative form: the joined path is the same, `write_file` returns
the identical result, and `read_file`/`list_directory` succeed with the
same payload (their failure messages echo the raw input, hence the
success-level comparison).  An empty request path resolves to the root
itself and passes the containment check. -/
theorem c5_leading_separators_stripped (fs : FS) (s c : String) :
    fullOf ("/" ++ s) = fullOf s ∧
    write_file fs ("/" ++ s) c = write_file fs s c ∧
    (∀ ct rp sz, read_file fs ("/" ++ s) = .success ct rp sz ↔
      read_file fs s = .success ct rp sz) ∧
    (∀ rp es cnt, list_directory fs ("/" ++ s) = .success rp es cnt ↔
      list_directory fs s = .success rp es cnt) ∧
    secCheck (fullOf "") = true ∧
    resolveAbs (fullOf "") = ["config"] := by
  have hclean : cleanOf ("/" ++ s) = cleanOf s := by
    unfold cleanOf
    rw [lstripSlash_slash_append]
  have hfull : fullOf ("/" ++ s) = fullOf s := by
    unfold fullOf
    rw [hclean]
  have hcleanL : cleanListOf ("/" ++ s) = cleanListOf s := by
    rw [cleanListOf_eq_cleanOf, cleanListOf_eq_cleanOf, hclean]
  have hfullL : fullListOf ("/" ++ s) = fullListOf s := by
    unfold fullListOf
    rw [hcleanL]
  refine ⟨hfull, ?_, ?_, ?_, by decide, by decide⟩
  · unfold write_file write_body
    rw [hfull, hclean]
  · intro ct rp sz
    rw [read_file_success_iff, read_file_success_iff, hfull, hclean]
  · intro rp es cnt
    rw [list_directory_success_iff, list_directory_success_iff, hfullL, hcleanL]

/-! ### Parent-directory creation lemmas -/

/-- `os.mkdir` on a dot-free path creates the directory when every
proper prefix is a directory and the target is absent. -/
theorem os_mkdir_clean_create (fs : FS) (comps : List String)
    (hclean : ∀ c ∈ comps, c ≠ "." ∧ c ≠ "..")
    (hdirs : ∀ k, k < comps.length → FS.find fs (comps.take k) = some .dir)
    (hnone : FS.find fs comps = none) :
    os_mkdir fs comps = .ok (FS.insert fs comps .dir) := by
  have hwalk : walkRes fs [] comps = .ok comps := by
    simpa using walkRes_clean_ok fs comps hclean [] (by simpa using hdirs)
  unfold os_mkdir
  rw [hwalk]
  show (if (FS.find fs comps).isSome = true then Except.error OSErr.eexist
        else Except.ok (FS.insert fs comps Node.dir)) = _
  rw [hnone]
  rfl

/-- `os.mkdir` on a dot-free path fails with `EEXIST` when every proper
prefix is a directory and the target already exists. -/
theorem os_mkdir_clean_eexist (fs : FS) (comps : List String)
    (hclean : ∀ c ∈ comps, c ≠ "." ∧ c ≠ "..")
    (hdirs : ∀ k, k < comps.length → FS.find fs (comps.take k) = some .dir)
    (hsome : (FS.find fs comps).isSome = true) :
    os_mkdir fs comps = .error .eexist := by
  have hwalk : walkRes fs [] comps = .ok comps := by
    simpa using walkRes_clean_ok fs comps hclean [] (by simpa using hdirs)
  unfold os_mkdir
  rw [hwalk]
  show (if (FS.find fs comps).isSome = true then Except.error OSErr.eexist
        else Except.ok (FS.insert fs comps Node.dir)) = _
  rw [if_pos hsome]

/-- `os.mkdir` on a dot-free path fails with `ENOENT` when the proper
prefixes are each absent or a directory and at least one is absent. -/
theorem os_mkdir_clean_enoent (fs : FS) (comps : List String)
    (hclean : ∀ c ∈ comps, c ≠ "." ∧ c ≠ "..")
    (hpre : ∀ k, k < comps.length →
      FS.find fs (comps.take k) = none ∨ FS.find fs (comps.take k) = some .dir)
    (hnot : ¬(∀ k, k < comps.length → FS.find fs (comps.take k) = some .dir)) :
    os_mkdir fs comps = .error .enoent := by
  have hwalk : walkRes fs [] comps = .error .enoent := by
    apply walkRes_clean_enoent fs comps hclean []
    · simpa using hpre
    · simpa using hnot
  unfold os_mkdir
  rw [hwalk]

/-- Unfolding equation for `mkdirP` when the first `os.mkdir` attempt
fails with `ENOENT` on a nonempty path. -/
theorem mkdirP_succ_enoent (f : Nat) (fs : FS) (comps : List String)
    (hne : ¬(comps = []))
    (h : os_mkdir fs comps = .error .enoent) :
    mkdirP (f + 1) fs comps =
      match mkdirP f fs comps.dropLast with
      | (fsPar, none) =>
        match os_mkdir fsPar comps with
        | .ok fsNew => (fsNew, none)
        | .error .enoent => (fsPar, some .enoent)
        | .error e => if isDirAt fsPar comps then (fsPar, none) else (fsPar, some e)
      | (fsPar, some e) => (fsPar, some e) := by
  conv_lhs => unfold mkdirP
  rw [h, if_neg hne]

/-- `Path.mkdir(parents=True, exist_ok=True)` on a dot-free path whose
prefixes are each absent or a directory (the root being a directory)
succeeds, leaves every prefix a directory, and touches nothing else. -/
theorem mkdirP_ok (comps : List String) :
    (∀ c ∈ comps, c ≠ "." ∧ c ≠ "..") →
    ∀ fuel fs, comps.length < fuel →
      FS.find fs [] = some .dir →
      (∀ k, k ≤ comps.length →
        FS.find fs (comps.take k) = none ∨ FS.find fs (comps.take k) = some .dir) →
      ∃ fs2, mkdirP fuel fs comps = (fs2, none) ∧
        (∀ k, k ≤ comps.length → FS.find fs2 (comps.take k) = some .dir) ∧
        (∀ q, (∀ k, k ≤ comps.length → q ≠ comps.take k) →
          FS.find fs2 q = FS.find fs q) := by
  induction comps using List.reverseRecOn with
  | nil =>
    intro hclean fuel fs hfuel h0 hpre
    cases fuel with
    | zero => exact absurd hfuel (by omega)
    | succ f =>
      have hmk : os_mkdir fs [] = .error .eexist := by
        unfold os_mkdir
        have hwalk : walkRes fs [] [] = .ok [] := rfl
        rw [hwalk]
        show (if (FS.find fs []).isSome = true then Except.error OSErr.eexist
              else Except.ok (FS.insert fs [] Node.dir)) = _
        rw [if_pos (by rw [h0]; rfl)]
      have hdir : isDirAt fs [] = true := by
        simp [isDirAt, statAt, walkRes, h0]
      refine ⟨fs, ?_, ?_, fun q _ => rfl⟩
      · simp [mkdirP, hmk, hdir]
      · intro k hk
        have hk0 : k = 0 := Nat.le_zero.mp hk
        subst hk0
        simpa using h0
  | append_singleton init a ih =>
    intro hclean fuel fs hfuel h0 hpre
    have hcleanInit : ∀ c ∈ init, c ≠ "." ∧ c ≠ ".." :=
      fun c hc => hclean c (List.mem_append_left _ hc)
    have hdrop : (init ++ [a]).dropLast = init := by simp
    have hlen : (init ++ [a]).length = init.length + 1 := by simp
    cases fuel with
    | zero => exact absurd hfuel (by omega)
    | succ f =>
      have htake_self : (init ++ [a]).take (init ++ [a]).length = init ++ [a] := by simp
      have htake_ne : ∀ k, k < (init ++ [a]).length → (init ++ [a]).take k ≠ init ++ [a] := by
        intro k hk he
        have := congrArg List.length he
        simp [List.length_take] at this
        omega
      by_cases hall : ∀ k, k < (init ++ [a]).length →
          FS.find fs ((init ++ [a]).take k) = some .dir
      · rcases hpre (init ++ [a]).length (le_refl _) with htgt | htgt
        · have htgt2 : FS.find fs (init ++ [a]) = none := by
            rw [← htake_self]
            exact htgt
          have hmk := os_mkdir_clean_create fs (init ++ [a]) hclean hall htgt2
          refine ⟨FS.insert fs (init ++ [a]) .dir, ?_, ?_, ?_⟩
          · simp [mkdirP, hmk]
          · intro k hk
            rcases Nat.lt_or_ge k (init ++ [a]).length with hk2 | hk2
            · rw [find_insert_ne _ _ _ _ (htake_ne k hk2)]
              exact hall k hk2
            · have hke : k = (init ++ [a]).length := le_antisymm hk hk2
              subst hke
              rw [htake_self]
              exact find_insert_self _ _ _
          · intro q hq
            have hne : q ≠ init ++ [a] := by
              have := hq (init ++ [a]).length (le_refl _)
              rwa [htake_self] at this
            exact find_insert_ne _ _ _ _ hne
        · have htgt2 : FS.find fs (init ++ [a]) = some .dir := by
            rw [← htake_self]
            exact htgt
          have hwalk : walkRes fs [] (init ++ [a]) = .ok (init ++ [a]) := by
            simpa using walkRes_clean_ok fs (init ++ [a]) hclean [] (by simpa using hall)
          have hmk : os_mkdir fs (init ++ [a]) = .error .eexist :=
            os_mkdir_clean_eexist fs (init ++ [a]) hclean hall (by rw [htgt2]; rfl)
          have hdir : isDirAt fs (init ++ [a]) = true := by
            simp [isDirAt, statAt, hwalk, htgt2]
          refine ⟨fs, ?_, ?_, fun q _ => rfl⟩
          · simp [mkdirP, hmk, hdir]
          · intro k hk
            rcases Nat.lt_or_ge k (init ++ [a]).length with hk2 | hk2
            · exact hall k hk2
            · have hke : k = (init ++ [a]).length := le_antisymm hk hk2
              subst hke
              rw [htake_self]
              exact htgt2
      · have henoent : os_mkdir fs (init ++ [a]) = .error .enoent := by
          apply os_mkdir_clean_enoent fs (init ++ [a]) hclean
          · intro k hk
            exact hpre k (Nat.le_of_lt hk)
          · exact hall
        have hfuel2 : init.length < f := by
          rw [hlen] at hfuel
          omega
        have hpreInit : ∀ k, k ≤ init.length →
            FS.find fs (init.take k) = none ∨ FS.find fs (init.take k) = some .dir := by
          intro k hk
          have := hpre k (by rw [hlen]; omega)
          rwa [List.take_append_of_le_length hk] at this
        rcases ih hcleanInit f fs hfuel2 h0 hpreInit with ⟨fsPar, hmkP, hdirs, hpres⟩
        have hall2 : ∀ k, k < (init ++ [a]).length →
            FS.find fsPar ((init ++ [a]).take k) = some .dir := by
          intro k hk
          have hk2 : k ≤ init.length := by
            rw [hlen] at hk
            omega
          rw [List.take_append_of_le_length hk2]
          exact hdirs k hk2
        have htgtPar : FS.find fsPar (init ++ [a]) = FS.find fs (init ++ [a]) := by
          apply hpres
          intro k hk he
          have := congrArg List.length he
          simp [List.length_take] at this
          omega
        have hpresFix : ∀ q, (∀ k, k ≤ (init ++ [a]).length → q ≠ (init ++ [a]).take k) →
            FS.find fsPar q = FS.find fs q := by
          intro q hq
          apply hpres
          intro k hk
          have := hq k (by rw [hlen]; omega)
          rwa [List.take_append_of_le_length hk] at this
        rw [mkdirP_succ_enoent f fs (init ++ [a]) (by simp) henoent, hdrop, hmkP]
        rcases hpre (init ++ [a]).length (le_refl _) with htgt | htgt
        · have htgt2 : FS.find fsPar (init ++ [a]) = none := by
            rw [htgtPar, ← htake_self]
            exact htgt
          have hmk2 := os_mkdir_clean_create fsPar (init ++ [a]) hclean hall2 htgt2
          refine ⟨FS.insert fsPar (init ++ [a]) .dir, ?_, ?_, ?_⟩
          · show (match os_mkdir fsPar (init ++ [a]) with
              | Except.ok fsNew => (fsNew, none)
              | Except.error OSErr.enoent => (fsPar, some OSErr.enoent)
              | Except.error e =>
                if isDirAt fsPar (init ++ [a]) then (fsPar, none) else (fsPar, some e))
              = (FS.insert fsPar (init ++ [a]) Node.dir, (none : Option OSErr))
            rw [hmk2]
          · intro k hk
            rcases Nat.lt_or_ge k (init ++ [a]).length with hk2 | hk2
            · rw [find_insert_ne _ _ _ _ (htake_ne k hk2)]
              exact hall2 k hk2
            · have hke : k = (init ++ [a]).length := le_antisymm hk hk2
              subst hke
              rw [htake_self]
              exact find_insert_self _ _ _
          · intro q hq
            have hne : q ≠ init ++ [a] := by
              have := hq (init ++ [a]).length (le_refl _)
              rwa [htake_self] at this
            rw [find_insert_ne _ _ _ _ hne]
            exact hpresFix q hq
        · have htgt2 : FS.find fsPar (init ++ [a]) = some .dir := by
            rw [htgtPar, ← htake_self]
            exact htgt
          have hwalk2 : walkRes fsPar [] (init ++ [a]) = .ok (init ++ [a]) := by
            simpa using walkRes_clean_ok fsPar (init ++ [a]) hclean [] (by simpa using hall2)
          have hmk2 : os_mkdir fsPar (init ++ [a]) = .error .eexist :=
            os_mkdir_clean_eexist fsPar (init ++ [a]) hclean hall2 (by rw [htgt2]; rfl)
          have hdir2 : isDirAt fsPar (init ++ [a]) = true := by
            simp [isDirAt, statAt, hwalk2, htgt2]
          refine ⟨fsPar, ?_, ?_, hpresFix⟩
          · show (match os_mkdir fsPar (init ++ [a]) with
              | Except.ok fsNew => (fsNew, none)
              | Except.error OSErr.enoent => (fsPar, some OSErr.enoent)
              | Except.error e =>
                if isDirAt fsPar (init ++ [a]) then (fsPar, none) else (fsPar, some e))
              = (fsPar, (none : Option OSErr))
            rw [hmk2]
            show (if isDirAt fsPar (init ++ [a]) = true then (fsPar, none)
                  else (fsPar, some OSErr.eexist)) = (fsPar, (none : Option OSErr))
            rw [if_pos hdir2]
          · intro k hk
            rcases Nat.lt_or_ge k (init ++ [a]).length with hk2 | hk2
            · exact hall2 k hk2
            · have hke : k = (init ++ [a]).length := le_antisymm hk hk2
              subst hke
              rw [htake_self]
              exact htgt2

/-- C6 (amended): for a traversal-free request path resolving inside
root such that every already-existing ancestor of the resolved path is
a directory and the target itself is absent or a regular file,
`write_file` succeeds; afterwards every parent directory along the
resolved path exists (created when missing, untouched with no error when
already present) and the target holds exactly the written content,
overwriting any existing file. -/
theorem c6_write_creates_parents (fs : FS) (p c : String)
    (hnd : ∀ x ∈ cleanOf p, x ≠ "..")
    (h0 : FS.find fs [] = some .dir)
    (hpre : ∀ k, k ≤ (fullOf p).dropLast.length →
      FS.find fs ((fullOf p).dropLast.take k) = none ∨
      FS.find fs ((fullOf p).dropLast.take k) = some .dir)
    (htgt : FS.find fs (fullOf p) = none ∨
      ∃ old, FS.find fs (fullOf p) = some (.file old)) :
    ∃ fs2, write_file fs p c = (fs2, .success (cleanStr (cleanOf p)) c.length) ∧
      (∀ k, k ≤ (fullOf p).dropLast.length →
        FS.find fs2 ((fullOf p).dropLast.take k) = some .dir) ∧
      FS.find fs2 (fullOf p) = some (.file c) := by
  have hcleanFull : ∀ x ∈ fullOf p, x ≠ "." ∧ x ≠ ".." := by
    intro x hx
    rcases List.mem_cons.mp hx with hx | hx
    · subst hx
      exact ⟨by decide, by decide⟩
    · exact ⟨(mem_parseRel_good (lstripSlash p) x hx).2.1, hnd x hx⟩
  have hsec : secCheck (fullOf p) = true :=
    secCheck_no_dots (cleanOf p)
      (fun x hx => ⟨(mem_parseRel_good (lstripSlash p) x hx).2.1, hnd x hx⟩)
  have hfull_ne : fullOf p ≠ [] := List.cons_ne_nil _ _
  have hsplit : (fullOf p).dropLast ++ [(fullOf p).getLast hfull_ne] = fullOf p :=
    List.dropLast_append_getLast hfull_ne
  have hlf : (fullOf p).dropLast.length + 1 = (fullOf p).length := by
    have := congrArg List.length hsplit
    simpa using this
  have hcleanPar : ∀ x ∈ (fullOf p).dropLast, x ≠ "." ∧ x ≠ ".." :=
    fun x hx => hcleanFull x (List.dropLast_subset _ hx)
  rcases mkdirP_ok (fullOf p).dropLast hcleanPar ((fullOf p).dropLast.length + 1) fs
      (Nat.lt_succ_self _) h0 hpre with ⟨fsPar, hmkP, hdirs, hpres⟩
  have hproper : ∀ k, k < (fullOf p).length →
      FS.find fsPar ((fullOf p).take k) = some .dir := by
    intro k hk
    have hk2 : k ≤ (fullOf p).dropLast.length := by omega
    have htk : (fullOf p).take k = (fullOf p).dropLast.take k := by
      conv_lhs => rw [← hsplit]
      exact List.take_append_of_le_length hk2
    rw [htk]
    exact hdirs k hk2
  have hwalkPar : walkRes fsPar [] (fullOf p) = .ok (fullOf p) := by
    simpa using walkRes_clean_ok fsPar (fullOf p) hcleanFull [] (by simpa using hproper)
  have htgtPar : FS.find fsPar (fullOf p) = FS.find fs (fullOf p) := by
    apply hpres
    intro k hk he
    have h1 := congrArg List.length he
    rw [List.length_take] at h1
    have h2 : min k (fullOf p).dropLast.length ≤ (fullOf p).dropLast.length :=
      Nat.min_le_right _ _
    omega
  have hwr : os_write fsPar (fullOf p) c
      = .ok (FS.insert fsPar (fullOf p) (.file c)) := by
    unfold os_write
    rw [hwalkPar]
    show (match FS.find fsPar (fullOf p) with
        | some Node.dir => Except.error OSErr.eisdir
        | some Node.other => Except.error OSErr.enxio
        | _ => Except.ok (FS.insert fsPar (fullOf p) (Node.file c)))
        = Except.ok (FS.insert fsPar (fullOf p) (Node.file c))
    rcases htgt with htg | ⟨old, htg⟩
    · rw [htgtPar, htg]
    · rw [htgtPar, htg]
  refine ⟨FS.insert fsPar (fullOf p) (.file c), ?_, ?_, find_insert_self _ _ _⟩
  · exact (write_file_success_iff fs _ p c _ _).mpr ⟨hsec, fsPar, hmkP, hwr, rfl, rfl⟩
  · intro k hk
    have hne : (fullOf p).dropLast.take k ≠ fullOf p := by
      intro he
      have h1 := congrArg List.length he
      rw [List.length_take] at h1
      have h2 : min k (fullOf p).dropLast.length ≤ (fullOf p).dropLast.length :=
        Nat.min_le_right _ _
      omega
    rw [find_insert_ne _ _ _ _ hne]
    exact hdirs k hk

/-- Filesystem for the C6 witness: the bare root, with the parent chain
of `sub/dir/f.txt` entirely absent. -/
def fsC6w : FS :=
  [([], .dir), (["config"], .dir)]

theorem c6_witness :
    ∃ fs2, write_file fsC6w "sub/dir/f.txt" "hello"
        = (fs2, .success (cleanStr (cleanOf "sub/dir/f.txt")) ("hello" : String).length) ∧
      (∀ k, k ≤ (fullOf "sub/dir/f.txt").dropLast.length →
        FS.find fs2 ((fullOf "sub/dir/f.txt").dropLast.take k) = some .dir) ∧
      FS.find fs2 (fullOf "sub/dir/f.txt") = some (.file "hello") :=
  c6_write_creates_parents fsC6w "sub/dir/f.txt" "hello"
    (by decide) (by decide) (by decide) (Or.inl (by decide))

/-! ### Further walk lemmas (traversal normalization) -/

/-- A walk that still has components to process starts at a directory. -/
theorem walk_cons_dir (fs : FS) (cur : List String) (c : String)
    (rest P : List String) (h : walkRes fs cur (c :: rest) = .ok P) :
    FS.find fs cur = some .dir := by
  unfold walkRes at h
  cases hf : FS.find fs cur with
  | none =>
    rw [hf] at h
    exact Except.noConfusion h
  | some n =>
    cases n with
    | dir => rfl
    | file content =>
      rw [hf] at h
      exact Except.noConfusion h
    | other =>
      rw [hf] at h
      exact Except.noConfusion h

/-- Step equation of the walk at a directory. -/
theorem walkRes_cons_eq (fs : FS) (cur : List String) (c : String)
    (rest : List String) (hd : FS.find fs cur = some .dir) :
    walkRes fs cur (c :: rest) =
      (if c = ".." then walkRes fs cur.dropLast rest
       else if c = "." then walkRes fs cur rest
       else walkRes fs (cur ++ [c]) rest) := by
  show (match FS.find fs cur with
      | some Node.dir =>
        if c = ".." then walkRes fs cur.dropLast rest
        else if c = "." then walkRes fs cur rest
        else walkRes fs (cur ++ [c]) rest
      | some _ => Except.error OSErr.enotdir
      | none => Except.error OSErr.enoent) = _
  rw [hd]

/-- A successful walk of `a ++ b` decomposes into a walk of `a`
followed by a walk of `b`. -/
theorem walkRes_append_inv (fs : FS) :
    ∀ (a : List String) (cur P b : List String),
      walkRes fs cur (a ++ b) = .ok P →
      ∃ Q, walkRes fs cur a = .ok Q ∧ walkRes fs Q b = .ok P := by
  intro a
  induction a with
  | nil =>
    intro cur P b h
    exact ⟨cur, rfl, h⟩
  | cons c rest ih =>
    intro cur P b h
    have hd : FS.find fs cur = some .dir := walk_cons_dir fs cur c (rest ++ b) P h
    rw [show (c :: rest) ++ b = c :: (rest ++ b) from rfl,
      walkRes_cons_eq fs cur c (rest ++ b) hd] at h
    rw [walkRes_cons_eq fs cur c rest hd]
    by_cases h2 : c = ".."
    · rw [if_pos h2] at h ⊢
      exact ih cur.dropLast P b h
    · rw [if_neg h2] at h ⊢
      by_cases h1 : c = "."
      · rw [if_pos h1] at h ⊢
        exact ih cur P b h
      · rw [if_neg h1] at h ⊢
        exact ih (cur ++ [c]) P b h

/-- In the symlink-free model, a successful walk lands exactly on the
lexical resolution of its components. -/
theorem walk_eq_resolve (fs : FS) :
    ∀ (rest cur P : List String), walkRes fs cur rest = .ok P →
      resolveAux cur rest = P := by
  intro rest
  induction rest with
  | nil =>
    intro cur P h
    simpa [walkRes, resolveAux] using h
  | cons c rest ih =>
    intro cur P h
    have hd : FS.find fs cur = some .dir := walk_cons_dir fs cur c rest P h
    unfold walkRes at h
    rw [hd] at h
    unfold resolveAux
    by_cases h2 : c = ".."
    · have h1 : ¬(c = ".") := by
        subst h2
        decide
      rw [if_pos h2] at h
      rw [if_neg h1, if_pos h2]
      exact ih cur.dropLast P h
    · rw [if_neg h2] at h
      by_cases h1 : c = "."
      · rw [if_pos h1] at h
        rw [if_pos h1]
        exact ih cur P h
      · rw [if_neg h1] at h
        rw [if_neg h1, if_neg h2]
        exact ih (cur ++ [c]) P h

/-- Along a successful walk, every proper prefix of the landing point
is a directory (each prefix was the current path just before its last
component was pushed). -/
theorem walk_dirsBelow (fs : FS) :
    ∀ (rest cur P : List String), walkRes fs cur rest = .ok P →
      (∀ k, k < cur.length → FS.find fs (cur.take k) = some .dir) →
      (∀ k, k < P.length → FS.find fs (P.take k) = some .dir) := by
  intro rest
  induction rest with
  | nil =>
    intro cur P h hcur
    have hP : cur = P := by simpa [walkRes] using h
    subst hP
    exact hcur
  | cons c rest ih =>
    intro cur P h hcur
    have hd : FS.find fs cur = some .dir := walk_cons_dir fs cur c rest P h
    unfold walkRes at h
    rw [hd] at h
    by_cases h2 : c = ".."
    · rw [if_pos h2] at h
      apply ih cur.dropLast P h
      intro k hk
      have hk2 : k < cur.length := by
        have := List.length_dropLast cur
        omega
      have htk : cur.dropLast.take k = cur.take k := by
        rw [List.dropLast_eq_take, List.take_take]
        have hlen : k ≤ cur.length - 1 := by
          have := List.length_dropLast cur
          omega
        rw [Nat.min_eq_left hlen]
      rw [htk]
      exact hcur k hk2
    · rw [if_neg h2] at h
      by_cases h1 : c = "."
      · rw [if_pos h1] at h
        exact ih cur P h hcur
      · rw [if_neg h1] at h
        apply ih (cur ++ [c]) P h
        intro k hk
        rw [List.length_append] at hk
        rcases Nat.lt_or_ge k cur.length with hk2 | hk2
        · rw [List.take_append_of_le_length (Nat.le_of_lt hk2)]
          exact hcur k hk2
        · have hke : k = cur.length := by
            simp at hk
            omega
          subst hke
          rw [List.take_append_of_le_length (le_refl _)]
          rw [List.take_length]
          exact hd

/-- `statAt` of an extended path continues the walk from the landing
point of the base path. -/
theorem statAt_append_of_walk (fs : FS) (a P b : List String)
    (h : walkRes fs [] a = .ok P) :
    statAt fs (a ++ b) = (match walkRes fs P b with
      | .ok r => FS.find fs r
      | .error _ => none) := by
  unfold statAt
  rw [walkRes_append_ok fs a [] P b h]

/-! ### Claim C2 (amended theorem) -/

/-- C2 (amended): when a request path's OS walk succeeds — every
intermediate step of the traversal resolves through existing
directories — landing inside root on `/config/m`, each operation
behaves exactly as on the normalized relative path `m`, except that
the reported path field echoes each call's own cleaned input: a
successful read returns the same content and size, a successful
listing the same entries and count, and a successful write the same
filesystem and size. -/
theorem c2_traversal_normalized (fs : FS) (p : String) (m : List String)
    (hwalk : walkRes fs [] (fullOf p) = .ok ("config" :: m)) :
    (∀ ct rp sz, read_file fs p = .success ct rp sz →
      read_file fs (joinSlash m) = .success ct (cleanStr m) sz) ∧
    (∀ rp es cnt, list_directory fs p = .success rp es cnt →
      list_directory fs (joinSlash m)
        = .success (if cleanStr m = "." then "" else cleanStr m) es cnt) ∧
    (∀ c fs2 rp sz, write_file fs p c = (fs2, .success rp sz) →
      write_file fs (joinSlash m) c = (fs2, .success (cleanStr m) sz)) := by
  have hres : resolveAux [] (fullOf p) = "config" :: m :=
    walk_eq_resolve fs (fullOf p) [] ("config" :: m) hwalk
  have hfullGood : ∀ x ∈ fullOf p, goodComp x := by
    intro x hx
    rcases List.mem_cons.mp hx with hx | hx
    · subst hx
      exact ⟨by decide, by decide, by decide⟩
    · exact mem_parseRel_good (lstripSlash p) x hx
  have hPmem : ∀ x ∈ ("config" :: m), x ∈ fullOf p ∧ x ≠ "." ∧ x ≠ ".." := by
    intro x hx
    rw [← hres] at hx
    rcases mem_resolveAux (fullOf p) [] x hx with h | h
    · exact absurd h (List.not_mem_nil x)
    · exact h
  have hmgood : ∀ x ∈ m, goodComp x :=
    fun x hx => hfullGood x (hPmem x (List.mem_cons_of_mem _ hx)).1
  have hPnodots : ∀ x ∈ ("config" :: m), x ≠ "." ∧ x ≠ ".." :=
    fun x hx => (hPmem x hx).2
  have hq_clean : cleanOf (joinSlash m) = m := by
    unfold cleanOf
    rw [lstripSlash_joinSlash m hmgood, parseRel_joinSlash m hmgood]
  have hfullq : fullOf (joinSlash m) = "config" :: m := by
    unfold fullOf
    rw [hq_clean]
  have hdb : ∀ k, k < ("config" :: m).length →
      FS.find fs (("config" :: m).take k) = some .dir :=
    walk_dirsBelow fs (fullOf p) [] ("config" :: m) hwalk (by simp)
  have hwalkQ : walkRes fs [] ("config" :: m) = .ok ("config" :: m) := by
    simpa using walkRes_clean_ok fs ("config" :: m) hPnodots [] (by simpa using hdb)
  have hsecq : secCheck ("config" :: m) = true :=
    secCheck_no_dots m (fun x hx => (hPmem x (List.mem_cons_of_mem _ hx)).2)
  have hstatP : statAt fs (fullOf p) = FS.find fs ("config" :: m) :=
    statAt_eq_find_of_walk fs _ _ hwalk
  have hstatQ : statAt fs ("config" :: m) = FS.find fs ("config" :: m) :=
    statAt_eq_find_of_walk fs _ _ hwalkQ
  have hstatEq : statAt fs ("config" :: m) = statAt fs (fullOf p) := by
    rw [hstatP, hstatQ]
  refine ⟨?_, ?_, ?_⟩
  · intro ct rp sz h
    rcases (read_file_success_iff fs p ct rp sz).mp h
      with ⟨hsec, hex, hfi, hrd, hrp, hsz⟩
    have hiff := read_file_success_iff fs (joinSlash m) ct (cleanStr m) sz
    rw [hfullq, hq_clean] at hiff
    apply hiff.mpr
    refine ⟨hsecq, ?_, ?_, ?_, rfl, hsz⟩
    · unfold existsAt at hex ⊢
      rw [hstatEq]
      exact hex
    · unfold isFileAt at hfi ⊢
      rw [hstatEq]
      exact hfi
    · unfold os_read at hrd ⊢
      rw [hstatEq]
      exact hrd
  · intro rp es cnt h
    rcases (list_directory_success_iff fs p rp es cnt).mp h
      with ⟨hsec, hex, hdi, names, hld, hes, hcnt, hrp⟩
    rw [fullListOf_eq_fullOf] at hex hdi hld
    have hiff := list_directory_success_iff fs (joinSlash m)
      (if cleanStr m = "." then "" else cleanStr m) es cnt
    rw [fullListOf_eq_fullOf, hfullq, cleanListOf_eq_cleanOf, hq_clean] at hiff
    apply hiff.mpr
    refine ⟨hsecq, ?_, ?_, names, ?_, ?_, hcnt, rfl⟩
    · unfold existsAt at hex ⊢
      rw [hstatEq]
      exact hex
    · unfold isDirAt at hdi ⊢
      rw [hstatEq]
      exact hdi
    · unfold os_listdir at hld ⊢
      rw [hwalk] at hld
      rw [hwalkQ]
      exact hld
    · rw [hes, fullListOf_eq_fullOf]
      have hment : mkEntry fs ("config" :: m) = mkEntry fs (fullOf p) := by
        funext n
        unfold mkEntry
        have hstat : statAt fs (("config" :: m) ++ [n]) = statAt fs (fullOf p ++ [n]) := by
          rw [statAt_append_of_walk fs ("config" :: m) ("config" :: m) [n] hwalkQ,
            statAt_append_of_walk fs (fullOf p) ("config" :: m) [n] hwalk]
        unfold isDirAt isFileAt sizeAt
        rw [hstat]
      rw [hment]
  · intro c fs2 rp sz h
    rcases (write_file_success_iff fs fs2 p c rp sz).mp h
      with ⟨hsec, fsPar, hmk, hwr, hrp, hsz⟩
    have hfull_ne : fullOf p ≠ [] := List.cons_ne_nil _ _
    have hsplit : (fullOf p).dropLast ++ [(fullOf p).getLast hfull_ne] = fullOf p :=
      List.dropLast_append_getLast hfull_ne
    have hwalk2 : walkRes fs []
        ((fullOf p).dropLast ++ [(fullOf p).getLast hfull_ne]) = .ok ("config" :: m) := by
      rw [hsplit]
      exact hwalk
    rcases walkRes_append_inv fs (fullOf p).dropLast [] ("config" :: m)
        [(fullOf p).getLast hfull_ne] hwalk2 with ⟨Q, hwQ, hwLast⟩
    have hfQ : FS.find fs Q = some .dir :=
      walk_cons_dir fs Q ((fullOf p).getLast hfull_ne) [] ("config" :: m) hwLast
    have hmkdirp : os_mkdir fs (fullOf p).dropLast = .error .eexist := by
      unfold os_mkdir
      rw [hwQ]
      have hcond : (FS.find fs Q).isSome = true := by
        rw [hfQ]
        rfl
      show (if (FS.find fs Q).isSome = true then Except.error OSErr.eexist
            else Except.ok (FS.insert fs Q Node.dir)) = _
      rw [if_pos hcond]
    have hdirp : isDirAt fs (fullOf p).dropLast = true := by
      have hstatp : statAt fs (fullOf p).dropLast = some Node.dir := by
        rw [statAt_eq_find_of_walk fs _ _ hwQ, hfQ]
      unfold isDirAt
      rw [hstatp]
    have hmkP2 : mkdirP ((fullOf p).dropLast.length + 1) fs (fullOf p).dropLast
        = (fs, none) := by
      simp [mkdirP, hmkdirp, hdirp]
    have hfsPar : fsPar = fs := by
      have h9 := hmk.symm.trans hmkP2
      exact congrArg Prod.fst h9
    rw [hfsPar] at hwr
    -- the normalized parent chain also exists entirely
    have hPlen : ("config" :: m).length = m.length + 1 := rfl
    have hdbDrop : ∀ k, k < ("config" :: m).dropLast.length →
        FS.find fs (("config" :: m).dropLast.take k) = some .dir := by
      intro k hk
      have hlend := List.length_dropLast ("config" :: m)
      have hk2 : k < ("config" :: m).length := by omega
      have htk : ("config" :: m).dropLast.take k = ("config" :: m).take k := by
        rw [List.dropLast_eq_take, List.take_take]
        have hle : k ≤ ("config" :: m).length - 1 := by omega
        rw [Nat.min_eq_left hle]
      rw [htk]
      exact hdb k hk2
    have hwalkQpar : walkRes fs [] ("config" :: m).dropLast
        = .ok (("config" :: m).dropLast) := by
      have hnodots : ∀ x ∈ ("config" :: m).dropLast, x ≠ "." ∧ x ≠ ".." :=
        fun x hx => hPnodots x (List.dropLast_subset _ hx)
      simpa using walkRes_clean_ok fs ("config" :: m).dropLast hnodots []
        (by simpa using hdbDrop)
    have hfQ2 : FS.find fs (("config" :: m).dropLast) = some .dir := by
      have hlend := List.length_dropLast ("config" :: m)
      have htk : ("config" :: m).dropLast = ("config" :: m).take (("config" :: m).length - 1) :=
        List.dropLast_eq_take _
      rw [htk]
      apply hdb
      omega
    have hmkdirq : os_mkdir fs ("config" :: m).dropLast = .error .eexist := by
      unfold os_mkdir
      rw [hwalkQpar]
      have hcond : (FS.find fs (("config" :: m).dropLast)).isSome = true := by
        rw [hfQ2]
        rfl
      show (if (FS.find fs (("config" :: m).dropLast)).isSome = true
            then Except.error OSErr.eexist
            else Except.ok (FS.insert fs (("config" :: m).dropLast) Node.dir)) = _
      rw [if_pos hcond]
    have hdirq : isDirAt fs ("config" :: m).dropLast = true := by
      have hstatq2 : statAt fs ("config" :: m).dropLast = some Node.dir := by
        rw [statAt_eq_find_of_walk fs _ _ hwalkQpar, hfQ2]
      unfold isDirAt
      rw [hstatq2]
    have hmkQ2 : mkdirP (("config" :: m).dropLast.length + 1) fs ("config" :: m).dropLast
        = (fs, none) := by
      simp [mkdirP, hmkdirq, hdirq]
    have hosq : os_write fs ("config" :: m) c = os_write fs (fullOf p) c := by
      unfold os_write
      rw [hwalkQ, hwalk]
    have hiff := write_file_success_iff fs fs2 (joinSlash m) c (cleanStr m) sz
    rw [hfullq, hq_clean] at hiff
    apply hiff.mpr
    refine ⟨hsecq, fs, hmkQ2, ?_, rfl, hsz⟩
    rw [hosq]
    exact hwr

/-- Filesystem for the C2 witness: `/config/a` a directory and
`/config/b` a file, so the traversal `"a/../b"` walks through existing
directories. -/
def fsC2w : FS :=
  [([], .dir), (["config"], .dir), (["config", "a"], .dir),
   (["config", "b"], .file "x")]

theorem c2_witness : read_file fsC2w "b" = .success "x" (cleanStr ["b"]) 1 :=
  (c2_traversal_normalized fsC2w "a/../b" ["b"] rfl).1 "x" "a/../b" 1 (by decide)

/-! ### Sorting lemmas -/

theorem strLeChars_total : ∀ as bs : List Char,
    strLeChars as bs = true ∨ strLeChars bs as = true := by
  intro as
  induction as with
  | nil => intro bs; exact .inl rfl
  | cons a as ih =>
    intro bs
    cases bs with
    | nil => exact .inr rfl
    | cons b bs =>
      rcases Nat.lt_trichotomy a.toNat b.toNat with h | h | h
      · exact .inl (by simp [strLeChars, h])
      · have h1 : ¬a.toNat < b.toNat := by omega
        have h2 : ¬b.toNat < a.toNat := by omega
        simpa [strLeChars, h1, h2] using ih bs
      · exact .inr (by simp [strLeChars, h])

theorem strLeChars_trans : ∀ as bs cs : List Char,
    strLeChars as bs = true → strLeChars bs cs = true → strLeChars as cs = true := by
  intro as
  induction as with
  | nil => intro bs cs _ _; rfl
  | cons a as ih =>
    intro bs cs h1 h2
    cases bs with
    | nil => exact absurd h1 (by simp [strLeChars])
    | cons b bs =>
      cases cs with
      | nil => exact absurd h2 (by simp [strLeChars])
      | cons c cs =>
        rcases Nat.lt_trichotomy a.toNat b.toNat with hab | hab | hab
        · rcases Nat.lt_trichotomy b.toNat c.toNat with hbc | hbc | hbc
          · have hac : a.toNat < c.toNat := by omega
            simp [strLeChars, hac]
          · have hac : a.toNat < c.toNat := by omega
            simp [strLeChars, hac]
          · have hn1 : ¬b.toNat < c.toNat := by omega
            exact absurd h2 (by simp [strLeChars, hn1, hbc])
        · rcases Nat.lt_trichotomy b.toNat c.toNat with hbc | hbc | hbc
          · have hac : a.toNat < c.toNat := by omega
            simp [strLeChars, hac]
          · have hn1 : ¬a.toNat < b.toNat := by omega
            have hn2 : ¬b.toNat < a.toNat := by omega
            have hn3 : ¬b.toNat < c.toNat := by omega
            have hn4 : ¬c.toNat < b.toNat := by omega
            have hn5 : ¬a.toNat < c.toNat := by omega
            have hn6 : ¬c.toNat < a.toNat := by omega
            rw [strLeChars] at h1 h2
            rw [if_neg hn1, if_neg hn2] at h1
            rw [if_neg hn3, if_neg hn4] at h2
            rw [strLeChars, if_neg hn5, if_neg hn6]
            exact ih bs cs h1 h2
          · have hn3 : ¬b.toNat < c.toNat := by omega
            exact absurd h2 (by simp [strLeChars, hn3, hbc])
        · have hn1 : ¬a.toNat < b.toNat := by omega
          exact absurd h1 (by simp [strLeChars, hn1, hab])

theorem strLe_total (a b : String) : strLe a b = true ∨ strLe b a = true :=
  strLeChars_total a.data b.data

theorem strLe_trans (a b c : String) (h1 : strLe a b = true) (h2 : strLe b c = true) :
    strLe a c = true :=
  strLeChars_trans a.data b.data c.data h1 h2

/-- Sortedness by Python string order. -/
def StrSorted (l : List String) : Prop :=
  List.Pairwise (fun a b => strLe a b = true) l

theorem insSorted_perm (a : String) (l : List String) :
    List.Perm (insSorted a l) (a :: l) := by
  induction l with
  | nil => exact List.Perm.refl _
  | cons b bs ih =>
    unfold insSorted
    by_cases h : strLe a b = true
    · rw [if_pos h]
    · rw [if_neg h]
      exact (List.Perm.cons b ih).trans (List.Perm.swap a b bs)

theorem sortStr_perm (l : List String) : List.Perm (sortStr l) l := by
  induction l with
  | nil => exact List.Perm.refl _
  | cons a rest ih =>
    exact (insSorted_perm a (sortStr rest)).trans (List.Perm.cons a ih)

theorem insSorted_sorted (a : String) (l : List String) (hl : StrSorted l) :
    StrSorted (insSorted a l) := by
  induction l with
  | nil => simp [insSorted, StrSorted]
  | cons b bs ih =>
    rcases List.pairwise_cons.mp hl with ⟨hb, hbs⟩
    unfold insSorted
    by_cases h : strLe a b = true
    · rw [if_pos h]
      apply List.pairwise_cons.mpr
      refine ⟨?_, hl⟩
      intro x hx
      rcases List.mem_cons.mp hx with hx | hx
      · subst hx; exact h
      · exact strLe_trans a b x h (hb x hx)
    · rw [if_neg h]
      apply List.pairwise_cons.mpr
      refine ⟨?_, ih hbs⟩
      intro x hx
      have hx2 := (insSorted_perm a bs).mem_iff.mp hx
      rcases List.mem_cons.mp hx2 with hx2 | hx2
      · rw [hx2]
        rcases strLe_total a b with h1 | h1
        · exact absurd h1 h
        · exact h1
      · exact hb x hx2

theorem sortStr_sorted (l : List String) : StrSorted (sortStr l) := by
  induction l with
  | nil => exact List.Pairwise.nil
  | cons a rest ih => exact insSorted_sorted a (sortStr rest) ih

/-! ### Claim C7 (amended theorem) -/

/-- Inversion of a successful `os_listdir`. -/
theorem os_listdir_ok_inv (fs : FS) (full names : List String)
    (h : os_listdir fs full = .ok names) :
    ∃ q, walkRes fs [] full = .ok q ∧ FS.find fs q = some .dir ∧
      names = childNames fs q := by
  unfold os_listdir at h
  cases hwk : walkRes fs [] full with
  | error e =>
    rw [hwk] at h
    exact Except.noConfusion h
  | ok q =>
    rw [hwk] at h
    have h2 : (match FS.find fs q with
        | some Node.dir => Except.ok (childNames fs q)
        | some _ => Except.error OSErr.enotdir
        | none => Except.error OSErr.enoent) = Except.ok names := h
    cases hf : FS.find fs q with
    | none =>
      rw [hf] at h2
      exact Except.noConfusion h2
    | some n =>
      cases n with
      | dir =>
        rw [hf] at h2
        exact ⟨q, rfl, hf, (Except.ok.inj h2).symm⟩
      | file content =>
        rw [hf] at h2
        exact Except.noConfusion h2
      | other =>
        rw [hf] at h2
        exact Except.noConfusion h2

/-- C7 (amended): a successful `list_directory` reports exactly the
immediate children of the resolved directory, as entries sorted by name
in Python string order independent of enumeration order; each entry
carries the child's base name and a type (`"directory"` exactly when
the child is a directory, `"file"` otherwise); a size field is attached
exactly when the child is a regular file (entries of type `"file"` for
non-regular children carry none); the count equals the number of
entries; and the reported path is `""` (not `"."`) when the target is
the root itself. -/
theorem c7_list_success_shape (fs : FS) (p rp : String)
    (es : List Entry) (cnt : Nat)
    (hs : list_directory fs p = .success rp es cnt) :
    cnt = es.length ∧
    List.Pairwise (fun e1 e2 => strLe e1.name e2.name = true) es ∧
    (∃ q, walkRes fs [] (fullListOf p) = .ok q ∧ FS.find fs q = some .dir ∧
      List.Perm (es.map Entry.name) (childNames fs q)) ∧
    (∀ e ∈ es,
      (e.type = "directory" ↔ isDirAt fs (fullListOf p ++ [e.name]) = true) ∧
      (e.type = "directory" ∨ e.type = "file") ∧
      (e.size.isSome = true ↔ isFileAt fs (fullListOf p ++ [e.name]) = true)) ∧
    (p = "" → rp = "") := by
  rcases (list_directory_success_iff fs p rp es cnt).mp hs
    with ⟨hsec, hex, hdi, names, hld, hes, hcnt, hrp⟩
  rcases os_listdir_ok_inv fs (fullListOf p) names hld with ⟨q, hwk, hfq, hnames⟩
  have hmapname : es.map Entry.name = sortStr names := by
    rw [hes, List.map_map]
    have : (Entry.name ∘ mkEntry fs (fullListOf p)) = fun n => n := by
      funext n
      rfl
    rw [this, List.map_id']
  refine ⟨hcnt, ?_, ⟨q, hwk, hfq, ?_⟩, ?_, ?_⟩
  · rw [hes]
    rw [List.pairwise_map]
    exact sortStr_sorted names
  · rw [hmapname, hnames]
    exact sortStr_perm (childNames fs q)
  · intro e he
    rw [hes] at he
    rcases List.mem_map.mp he with ⟨n, hn, hme⟩
    subst hme
    have hname : (mkEntry fs (fullListOf p) n).name = n := rfl
    rw [hname]
    refine ⟨?_, ?_, ?_⟩
    · show ((if isDirAt fs (fullListOf p ++ [n]) then "directory" else "file") = "directory")
        ↔ isDirAt fs (fullListOf p ++ [n]) = true
      by_cases hd : isDirAt fs (fullListOf p ++ [n]) = true
      · rw [if_pos hd]
        exact ⟨fun _ => hd, fun _ => rfl⟩
      · rw [if_neg hd]
        exact ⟨fun hcontr => absurd hcontr (by decide), fun hcontr => absurd hcontr hd⟩
    · show (if isDirAt fs (fullListOf p ++ [n]) then "directory" else "file") = "directory"
        ∨ (if isDirAt fs (fullListOf p ++ [n]) then "directory" else "file") = "file"
      by_cases hd : isDirAt fs (fullListOf p ++ [n]) = true
      · exact .inl (by rw [if_pos hd])
      · exact .inr (by rw [if_neg hd])
    · show ((if isFileAt fs (fullListOf p ++ [n])
          then some (sizeAt fs (fullListOf p ++ [n])) else none).isSome = true)
        ↔ isFileAt fs (fullListOf p ++ [n]) = true
      by_cases hf : isFileAt fs (fullListOf p ++ [n]) = true
      · rw [if_pos hf]
        exact ⟨fun _ => hf, fun _ => rfl⟩
      · rw [if_neg hf]
        exact ⟨fun hcontr => absurd hcontr (by decide), fun hcontr => absurd hcontr hf⟩
  · intro hp
    subst hp
    rw [hrp]
    have : cleanStr (cleanListOf "") = "." := by decide
    rw [this, if_pos rfl]

/-- Filesystem for the C7 witness: a directory and a file inside
`/config`, listed out of name order in the association list. -/
def fsC7w : FS :=
  [([], .dir), (["config"], .dir), (["config", "b.txt"], .file "xy"),
   (["config", "a"], .dir)]

theorem c7_witness :
    2 = [Entry.mk "a" "directory" none, Entry.mk "b.txt" "file" (some 2)].length ∧
    List.Pairwise (fun e1 e2 => strLe e1.name e2.name = true)
      [Entry.mk "a" "directory" none, Entry.mk "b.txt" "file" (some 2)] ∧
    (∃ q, walkRes fsC7w [] (fullListOf "") = .ok q ∧ FS.find fsC7w q = some .dir ∧
      List.Perm ([Entry.mk "a" "directory" none,
        Entry.mk "b.txt" "file" (some 2)].map Entry.name) (childNames fsC7w q)) ∧
    (∀ e ∈ [Entry.mk "a" "directory" none, Entry.mk "b.txt" "file" (some 2)],
      (e.type = "directory" ↔ isDirAt fsC7w (fullListOf "" ++ [e.name]) = true) ∧
      (e.type = "directory" ∨ e.type = "file") ∧
      (e.size.isSome = true ↔ isFileAt fsC7w (fullListOf "" ++ [e.name]) = true)) ∧
    ("" = "" → "" = "") :=
  c7_list_success_shape fsC7w "" ""
    [Entry.mk "a" "directory" none, Entry.mk "b.txt" "file" (some 2)] 2 (by decide)

/-! ### Claim C3 -/

/-- Inversion of a successful `os_write`: the path walk succeeded, the
resolved target was not a directory, and the new filesystem is the old
one with the file inserted at the resolved target. -/
theorem os_write_ok_inv (fsPar fs2 : FS) (full : List String) (c : String)
    (h : os_write fsPar full c = .ok fs2) :
    ∃ q, walkRes fsPar [] full = .ok q ∧ FS.find fsPar q ≠ some .dir ∧
      fs2 = FS.insert fsPar q (.file c) := by
  unfold os_write at h
  cases hwk : walkRes fsPar [] full with
  | error e =>
    rw [hwk] at h
    exact Except.noConfusion h
  | ok q =>
    rw [hwk] at h
    have h2 : (match FS.find fsPar q with
        | some Node.dir => Except.error OSErr.eisdir
        | some Node.other => Except.error OSErr.enxio
        | _ => Except.ok (FS.insert fsPar q (Node.file c))) = Except.ok fs2 := h
    cases hf : FS.find fsPar q with
    | none =>
      rw [hf] at h2
      refine ⟨q, rfl, ?_, (Except.ok.inj h2).symm⟩
      rw [hf]
      simp
    | some n =>
      cases n with
      | dir =>
        rw [hf] at h2
        exact Except.noConfusion h2
      | other =>
        rw [hf] at h2
        exact Except.noConfusion h2
      | file ct =>
        rw [hf] at h2
        refine ⟨q, rfl, ?_, (Except.ok.inj h2).symm⟩
        rw [hf]
        simp

/-- C3: a successful `write_file p c` followed by `read_file p` returns
success with content exactly `c` and the same reported path, and the
sizes reported by the write and the read are both the character length
of `c`. -/
theorem c3_write_read_roundtrip (fs fs2 : FS) (p c rp : String) (sz : Nat)
    (hw : write_file fs p c = (fs2, .success rp sz)) :
    read_file fs2 p = .success c rp c.length ∧ sz = c.length := by
  rcases (write_file_success_iff fs fs2 p c rp sz).mp hw
    with ⟨hsec, fsPar, hmk, hwr, h5, h6⟩
  rcases os_write_ok_inv fsPar fs2 (fullOf p) c hwr with ⟨q, hwk, hnd, hfs2⟩
  subst hfs2
  have hwalk2 : walkRes (FS.insert fsPar q (.file c)) [] (fullOf p) = .ok q :=
    walkRes_insert_of_ne_dir fsPar (.file c) q hnd (fullOf p) [] q hwk
  have hstat : statAt (FS.insert fsPar q (.file c)) (fullOf p) = some (.file c) := by
    rw [statAt_eq_find_of_walk _ _ _ hwalk2, find_insert_self]
  refine ⟨(read_file_success_iff _ p c rp c.length).mpr ⟨hsec, ?_, ?_, ?_, h5, rfl⟩, h6⟩
  · rw [existsAt, hstat]
    rfl
  · unfold isFileAt
    rw [hstat]
  · unfold os_read
    rw [hstat]

/-- The filesystems of the C3 witness: the bare root, and the result of
writing `d/f.txt` into it. -/
def fsC3 : FS :=
  [([], .dir), (["config"], .dir)]

def fsC3w : FS :=
  [(["config", "d", "f.txt"], .file "hi"), (["config", "d"], .dir),
   ([], .dir), (["config"], .dir)]

theorem c3_witness :
    read_file fsC3w "d/f.txt" = .success "hi" "d/f.txt" 2 ∧ 2 = 2 :=
  c3_write_read_roundtrip fsC3 fsC3w "d/f.txt" "hi" "d/f.txt" 2 (by decide)

theorem c5_witness :
    fullOf ("/" ++ "etc/passwd") = fullOf "etc/passwd" ∧
    secCheck (fullOf "") = true :=
  ⟨(c5_leading_separators_stripped [] "etc/passwd" "").1,
   (c5_leading_separators_stripped [] "etc/passwd" "").2.2.2.2.1⟩

end HaMcp
